import Mathlib

/-!
Verification of the onth-driver-snapshot userscript core
(`amazon-driver-snapshot.user.js` and the `modules/` split found in the
repository) against its natural-language specification.

The development is a shallow embedding: strings are `List Char` (wrapped
into `String` at the public interface), the handful of regular expressions
the script uses are translated into explicit positional scanners with the
same leftmost/greedy semantics, DOM state and network state are passed
explicitly, and the scrolling/polling loops are fueled recursions over an
environment that provides, per iteration, what the DOM query would return.
JavaScript numbers are modelled as `Int` (respectively `Rat` where the
script extracts decimal readings); fractional or NaN-producing inputs do
not arise in any property checked here and are noted where a choice is
made.
-/

namespace Onth

/-- JS whitespace (ASCII part), as matched by `\s` and removed by `trim`. -/
def isJSpace (c : Char) : Bool :=
  c = ' ' || c = '\t' || c = '\n' || c = '\r' || c = '\x0b' || c = '\x0c'

/-- JS word character, the `\w` class: letters, digits, underscore. -/
def isWordC (c : Char) : Bool :=
  (('a' ≤ c && c ≤ 'z') || ('A' ≤ c && c ≤ 'Z') || c.isDigit || c = '_')

def lowerL (l : List Char) : List Char := l.map Char.toLower

def upperL (l : List Char) : List Char := l.map Char.toUpper

/-- `String.prototype.trim` (ASCII whitespace). -/
def trimL (l : List Char) : List Char :=
  ((l.dropWhile isJSpace).reverse.dropWhile isJSpace).reverse

/-- `split("\n")`. -/
def splitNL : List Char → List (List Char)
  | [] => [[]]
  | c :: cs =>
    if c = '\n' then [] :: splitNL cs
    else
      match splitNL cs with
      | [] => [[c]]
      | h :: t => (c :: h) :: t

/-- `replace(/\r/g, "\n")`. -/
def mapCR (l : List Char) : List Char :=
  l.map (fun c => if c = '\r' then '\n' else c)

/-- Bool test that `pat` occurs as a prefix (used for the `^...` anchored,
case-handled-by-caller tests). -/
def startsL (pat l : List Char) : Bool := pat.isPrefixOf l

/-- Bool test that `pat` occurs as a substring. -/
def containsSub (pat : List Char) : List Char → Bool
  | [] => pat.isPrefixOf []
  | c :: t => pat.isPrefixOf (c :: t) || containsSub pat t

/-- `norm`: `String(s||"").toLowerCase().trim()`. -/
def normL (l : List Char) : List Char := trimL (lowerL l)

def norm (s : String) : String := ⟨normL s.data⟩

/-- `digits`: `String(s||"").replace(/\D+/g, "")`. -/
def digitsOnly (s : String) : String := ⟨s.data.filter Char.isDigit⟩

def charAt (l : List Char) (i : Nat) : Option Char := l.get? i

def isDigitAt (l : List Char) (i : Nat) : Bool := (charAt l i).any Char.isDigit

def isWordAt (l : List Char) (i : Nat) : Bool := (charAt l i).any isWordC

def boundaryBefore (l : List Char) (p : Nat) : Bool :=
  p = 0 || !(isWordAt l (p - 1))

def boundaryAfter (l : List Char) (e : Nat) : Bool := !(isWordAt l e)

def digitsRun (l : List Char) (p n : Nat) : Bool :=
  (List.range n).all (fun k => isDigitAt l (p + k))

def zipEndAt (l : List Char) (p : Nat) : Option Nat :=
  if boundaryBefore l p && digitsRun l p 5 then
    if charAt l (p + 5) = some '-' && digitsRun l (p + 6) 4 && boundaryAfter l (p + 10) then
      some (p + 10)
    else if boundaryAfter l (p + 5) then some (p + 5)
    else none
  else none

/-- Least `q` in `[p, p+fuel)` at which the zip pattern matches. -/
def firstZipFrom (l : List Char) : Nat → Nat → Option Nat
  | _, 0 => none
  | p, fuel + 1 => if (zipEndAt l p).isSome then some p else firstZipFrom l (p + 1) fuel

def zipStart (l : List Char) : Option Nat := firstZipFrom l 0 l.length

def hasZipL (l : List Char) : Bool := (zipStart l).isSome

/-- `l.match(new RegExp("^(.*?" + RX.zip.source + ")"))?.[1]`, i.e. the
prefix of `l` up to the end of the leftmost zip match (`l` itself when
there is none, matching the `(m ? m[1] : l)` fallback). -/
def truncAtZip (l : List Char) : List Char :=
  match zipStart l with
  | some p =>
    match zipEndAt l p with
    | some e => l.take e
    | none => l
  | none => l

/-- A line survives the boilerplate filter:
`!/^edit in/i.test(l) && !/^driver aid/i.test(l) && !/geostudio/i.test(l)`. -/
def keepLine (l : List Char) : Bool :=
  !(startsL "edit in".data (lowerL l)) &&
  !(startsL "driver aid".data (lowerL l)) &&
  !(containsSub "geostudio".data (lowerL l))

/-- The zip-with-comma loop, the zip-only loop and the final fallback of
`cleanAddress`. -/
def cleanRest (keep lines : List (List Char)) : List Char :=
  match keep.find? (fun l => hasZipL l && l.contains ',') with
  | some l => trimL (truncAtZip l)
  | none =>
    match keep.find? hasZipL with
    | some l => trimL (truncAtZip l)
    | none => trimL (keep.headD (lines.headD []))

/-- The branch cascade of `cleanAddress` after line splitting: the
street-line + city/zip-line join, then `cleanRest`. -/
def cleanLines (keep lines : List (List Char)) : List Char :=
  match keep with
  | k0 :: k1 :: _ =>
    if !(hasZipL k0) && hasZipL k1 then trimL (k0 ++ ", ".data ++ k1)
    else cleanRest keep lines
  | _ => cleanRest keep lines

/-- Trimmed nonempty lines of the input, after `\r` → `\n` replacement. -/
def linesOf (raw : List Char) : List (List Char) :=
  ((splitNL (mapCR raw)).map trimL).filter (· ≠ [])

def cleanAddressL (raw : List Char) : List Char :=
  let lines := linesOf raw
  cleanLines (lines.filter keepLine) lines

def cleanAddress (s : String) : String := ⟨cleanAddressL s.data⟩

def NoNL (l : List Char) : Prop := ∀ c ∈ l, c ≠ '\n' ∧ c ≠ '\r'

def NoEdge (l : List Char) : Prop :=
  (∀ c, l.head? = some c → isJSpace c = false) ∧
  (∀ c, l.getLast? = some c → isJSpace c = false)

/-- `[APMapm]`. -/
def isAPM (c : Char) : Bool :=
  c = 'A' || c = 'P' || c = 'M' || c = 'a' || c = 'p' || c = 'm'

/-- Length of the whitespace run starting at `i` (what greedy `\s*`
consumes). -/
def wsRunLen (l : List Char) (i : Nat) : Nat :=
  ((l.drop i).takeWhile isJSpace).length

def wsSkip (l : List Char) (i : Nat) : Nat := i + wsRunLen l i

def digitRunLen (l : List Char) (i : Nat) : Nat :=
  ((l.drop i).takeWhile Char.isDigit).length

/-- `\s*[APMapm]{2}\b`, the tail of `RX.time12h` after the minutes. -/
def time12hTail (l : List Char) (q : Nat) : Bool :=
  let r := wsSkip l q
  (charAt l r).any isAPM && (charAt l (r + 1)).any isAPM && boundaryAfter l (r + 2)

/-- `RX.time12h = /\b\d{1,2}:\d{2}\s*[APMapm]{2}\b/` at position `p`
(the `\d{1,2}` alternatives are disjoint, so plain disjunction is the
backtracking semantics of a `test`). -/
def time12hAt (l : List Char) (p : Nat) : Bool :=
  boundaryBefore l p &&
  ((isDigitAt l p && isDigitAt l (p + 1) && charAt l (p + 2) = some ':' &&
      isDigitAt l (p + 3) && isDigitAt l (p + 4) && time12hTail l (p + 5)) ||
   (isDigitAt l p && charAt l (p + 1) = some ':' && isDigitAt l (p + 2) &&
      isDigitAt l (p + 3) && time12hTail l (p + 4)))

def time12hTest (l : List Char) : Bool :=
  (List.range l.length).any (fun p => time12hAt l p)

/-- `[\d\s().-]`, the middle class of `RX.phone`. -/
def isPhoneClass (c : Char) : Bool :=
  c.isDigit || isJSpace c || c = '(' || c = ')' || c = '.' || c = '-'

def phoneRunLen (l : List Char) (i : Nat) : Nat :=
  ((l.drop i).takeWhile isPhoneClass).length

/-- Largest `k ≤ start` with `7 ≤ k` and a digit at `s0 + k`: the
backtracking of the greedy `{7,}` so the match can end on a digit. -/
def phoneKDesc (l : List Char) (s0 : Nat) : Nat → Option Nat
  | 0 => none
  | k + 1 =>
    if 7 ≤ k + 1 && isDigitAt l (s0 + (k + 1)) then some (k + 1)
    else phoneKDesc l s0 k

/-- `RX.phone = /(\+?\d[\d\s().-]{7,}\d)/` at position `p`; returns the
end of the match. -/
def phoneMatchAt (l : List Char) (p : Nat) : Option Nat :=
  if charAt l p = some '+' then
    if isDigitAt l (p + 1) then
      (phoneKDesc l (p + 2) (phoneRunLen l (p + 2) - 1)).map (fun k => p + 2 + k + 1)
    else none
  else if isDigitAt l p then
    (phoneKDesc l (p + 1) (phoneRunLen l (p + 1) - 1)).map (fun k => p + 1 + k + 1)
  else none

/-- Leftmost `RX.phone` match: the `m[1]` of `l.match(RX.phone)`. -/
def phoneFirst (l : List Char) : Option (List Char) :=
  match (List.range l.length).find? (fun p => (phoneMatchAt l p).isSome) with
  | some p => (phoneMatchAt l p).map (fun e => (l.take e).drop p)
  | none => none

/-- Does the suffix at `i` match `\+?[\d(]` followed by a dot-matchable
rest (no line terminators, since `.` and `$` exclude them)? -/
def tidy1Head (l : List Char) (i : Nat) : Bool :=
  match charAt l i with
  | some '+' => (charAt l (i + 1)).any (fun c => c.isDigit || c = '(')
  | some c => c.isDigit || c = '('
  | none => false

def noTermFrom (l : List Char) (i : Nat) : Bool :=
  (l.drop i).all (fun c => !(c = '\n' || c = '\r'))

def tidy1Candidate (l : List Char) (i : Nat) : Bool :=
  tidy1Head l i && noTermFrom l i

/-- Greedy `^[^\d+]*` backtracks from the longest prefix down. -/
def tidy1SearchDesc (l : List Char) : Nat → Option Nat
  | 0 => if tidy1Candidate l 0 then some 0 else none
  | i + 1 => if tidy1Candidate l (i + 1) then some (i + 1) else tidy1SearchDesc l i

/-- `replace(/^[^\d+]*(\+?[\d(].*)$/, "$1")`. -/
def tidy1 (l : List Char) : List Char :=
  let P := (l.takeWhile (fun c => !(c.isDigit || c = '+'))).length
  match tidy1SearchDesc l P with
  | some i => l.drop i
  | none => l

/-- `replace(/\s{2,}/g, " ")`: each step consumes at least one character,
so `l.length` fuel always suffices. -/
def collapseWSGo : Nat → List Char → List Char
  | 0, l => l
  | _, [] => []
  | fuel + 1, c :: rest =>
    if isJSpace c then
      (if ((c :: rest).takeWhile isJSpace).length ≥ 2 then [' '] else [c]) ++
        collapseWSGo fuel (rest.dropWhile isJSpace)
    else c :: collapseWSGo fuel rest

def collapseWS (l : List Char) : List Char := collapseWSGo l.length l

def tidyPhoneL (l : List Char) : List Char := trimL (collapseWS (tidy1 l))

def tidyPhone (s : String) : String := ⟨tidyPhoneL s.data⟩

/-- `-?\d+(?:\.\d+)?` at position `p`; returns the end of the (greedy)
match. -/
def numValAt (l : List Char) (p : Nat) : Option Nat :=
  let dstart := if charAt l p = some '-' then p + 1 else p
  let dlen := digitRunLen l dstart
  if dlen = 0 then none
  else
    let q := dstart + dlen
    if charAt l q = some '.' then
      let flen := digitRunLen l (q + 1)
      if flen = 0 then some q else some (q + 1 + flen)
    else some q

def numValFirst (l : List Char) : Option (List Char) :=
  match (List.range l.length).find? (fun p => (numValAt l p).isSome) with
  | some p => (numValAt l p).map (fun e => (l.take e).drop p)
  | none => none

def digitsToNat (l : List Char) : Nat :=
  l.foldl (fun a c => a * 10 + (c.toNat - 48)) 0

/-- Value of a `-?\d+(\.\d+)?` numeral. JS numbers are floats; the
numerals the script extracts are modelled exactly as rationals. -/
def parseDecQ (m : List Char) : Rat :=
  let neg := match m with | '-' :: _ => true | _ => false
  let rest := match m with | '-' :: r => r | r => r
  let ip := rest.takeWhile Char.isDigit
  let rest2 := rest.drop ip.length
  let fp := match rest2 with | '.' :: fr => fr | _ => []
  let den : Nat := 10 ^ fp.length
  let q : Rat := mkRat (digitsToNat ip * den + digitsToNat fp) den
  if neg then -q else q

/-- `num`: first `RX.numVal` match converted to a number, else null. -/
def numQ (l : List Char) : Option Rat := (numValFirst l).map parseDecQ

/-- Case-insensitive literal at position `i` (pattern given lowercase);
returns the position after it. -/
def litCIAt (l pat : List Char) (i : Nat) : Option Nat :=
  if startsL pat (lowerL (l.drop i)) then some (i + pat.length) else none

/-- `[:\-]?` with the backtracking a trailing context needs: try with the
optional character consumed first, then without. -/
def optColonDash {α : Type} (l : List Char) (i : Nat) (tail : Nat → Option α) : Option α :=
  match charAt l i with
  | some c =>
    if c = ':' || c = '-' then
      match tail (i + 1) with
      | some r => some r
      | none => tail i
    else tail i
  | none => tail i

/-- `\s*[:\-]?\s*(-?\d+(?:\.\d+)?)`: the shared numeric tail of `RX.avg`
and `RX.pace`; returns the captured numeral. -/
def numSuffix (l : List Char) (i : Nat) : Option (List Char) :=
  optColonDash l (wsSkip l i) (fun k =>
    let s := wsSkip l k
    (numValAt l s).map (fun e => (l.take e).drop s))

/-- End positions, in engine order, of `(?:\.|\s+stops\/hour|\s*\/\s*hr)?`
starting at `i`. -/
def avgAlts (l : List Char) (i : Nat) : List Nat :=
  (match charAt l i with | some '.' => [i + 1] | _ => []) ++
  (let r := wsRunLen l i
   if 1 ≤ r then
     match litCIAt l "stops/hour".data (i + r) with
     | some j => [j]
     | none => []
   else []) ++
  (let j := wsSkip l i
   match charAt l j with
   | some '/' =>
     match litCIAt l "hr".data (wsSkip l (j + 1)) with
     | some k => [k]
     | none => []
   | _ => []) ++
  [i]

/-- `RX.avg` at position `p`; returns `m[1]`. -/
def avgMatchAt (l : List Char) (p : Nat) : Option (List Char) :=
  if boundaryBefore l p then
    match litCIAt l "avg".data p with
    | some i => (avgAlts l i).findSome? (fun j => numSuffix l j)
    | none => none
  else none

/-- End positions, in engine order, of `(?:Pace|Last\s*(?:hr|hour))`
starting at `p`. -/
def paceHeads (l : List Char) (p : Nat) : List Nat :=
  (match litCIAt l "pace".data p with | some j => [j] | none => []) ++
  (match litCIAt l "last".data p with
   | some j =>
     let k := wsSkip l j
     (match litCIAt l "hr".data k with | some e => [e] | none => []) ++
     (match litCIAt l "hour".data k with | some e => [e] | none => [])
   | none => [])

/-- `RX.pace` at position `p`; returns `m[1]`. -/
def paceMatchAt (l : List Char) (p : Nat) : Option (List Char) :=
  if boundaryBefore l p then (paceHeads l p).findSome? (fun j => numSuffix l j)
  else none

/-- `[0-9]{1,2}:[0-9]{2}\s*[APMapm]{2}` at `i` followed by `\b`; returns
the end of the time text (the `\d{1,2}` alternatives are disjoint). -/
def timeCapAt (l : List Char) (i : Nat) : Option Nat :=
  let tail := fun (j : Nat) =>
    let r := wsSkip l j
    if (charAt l r).any isAPM && (charAt l (r + 1)).any isAPM && boundaryAfter l (r + 2) then
      some (r + 2)
    else none
  if isDigitAt l i && isDigitAt l (i + 1) && charAt l (i + 2) = some ':' &&
      isDigitAt l (i + 3) && isDigitAt l (i + 4) then
    tail (i + 5)
  else if isDigitAt l i && charAt l (i + 1) = some ':' && isDigitAt l (i + 2) &&
      isDigitAt l (i + 3) then
    tail (i + 4)
  else none

/-- `\s*[:\-]?\s*(time)\b`: shared tail of `RX.rts`/`RX.rtsAlt`. -/
def timeSuffix (l : List Char) (i : Nat) : Option (List Char) :=
  optColonDash l (wsSkip l i) (fun k =>
    let s := wsSkip l k
    (timeCapAt l s).map (fun e => (l.take e).drop s))

/-- `RX.rts = /\bProjected\s*RTS\s*[:\-]?\s*(time)\b/i` at `p`. -/
def rtsMatchAt (l : List Char) (p : Nat) : Option (List Char) :=
  if boundaryBefore l p then
    (litCIAt l "projected".data p).bind (fun i =>
      (litCIAt l "rts".data (wsSkip l i)).bind (fun j => timeSuffix l j))
  else none

/-- `RX.rtsAlt = /\bRTS\s*[:\-]?\s*(time)\b/i` at `p`. -/
def rtsAltMatchAt (l : List Char) (p : Nat) : Option (List Char) :=
  if boundaryBefore l p then
    (litCIAt l "rts".data p).bind (fun j => timeSuffix l j)
  else none

/-- Leftmost match of a positional matcher. -/
def firstCap (matchAt : List Char → Nat → Option (List Char)) (l : List Char) :
    Option (List Char) :=
  match (List.range l.length).find? (fun p => (matchAt l p).isSome) with
  | some p => matchAt l p
  | none => none

/-- `one(t, ...rxs)`: first matcher with a match wins, capture trimmed. -/
def oneCap (t : List Char) (ms : List (List Char → Nat → Option (List Char))) :
    Option (List Char) :=
  ms.findSome? (fun m => (firstCap m t).map trimL)

/-- `RX.stopsPair = /(\d+)\s*\/\s*(\d+)\s*stops/i` at `p`; returns the two
captured numbers. -/
def stopsPairAt (l : List Char) (p : Nat) : Option (Nat × Nat) :=
  let d1 := digitRunLen l p
  if d1 = 0 then none
  else
    let j := wsSkip l (p + d1)
    if charAt l j = some '/' then
      let k := wsSkip l (j + 1)
      let d2 := digitRunLen l k
      if d2 = 0 then none
      else
        match litCIAt l "stops".data (wsSkip l (k + d2)) with
        | some _ =>
          some (digitsToNat ((l.take (p + d1)).drop p), digitsToNat ((l.take (k + d2)).drop k))
        | none => none
    else none

def stopsPairFirst (l : List Char) : Option (Nat × Nat) :=
  match (List.range l.length).find? (fun p => (stopsPairAt l p).isSome) with
  | some p => stopsPairAt l p
  | none => none

/-- One driver row as the scanner sees it: its `innerText` and the
results of the fixed attribute-selector lookups (`None` when the selector
finds no element with truthy `innerText`). -/
structure RowEnv where
  innerText : String
  telHref : Option String
  projectedRTSText : Option String
  avgPerHourText : Option String
  lastHourPaceText : Option String
deriving Repr, DecidableEq

structure DriverRecord where
  key : String
  name : String
  number : String
  projectedRTS : String
  avgPerHour : Option Rat
  lastHourPace : Option Rat
  stopsLeft : Option Int
deriving Repr, DecidableEq

/-- `text.split("\n").map(trim).filter(Boolean)` as used by `parseRow`
(no carriage-return replacement there). -/
def rowLines (text : List Char) : List (List Char) :=
  ((splitNL text).map trimL).filter (· ≠ [])

/-- `firstLine`. -/
def firstLineL (text : List Char) : List Char := trimL ((splitNL text).headD [])

/-- `lines[i] || ""`. -/
def lineAt (lines : List (List Char)) (i : Nat) : List Char := (lines.get? i).getD []

/-- `lines.join("  ")`. -/
def joinTwoSpace : List (List Char) → List Char
  | [] => []
  | [x] => x
  | x :: xs => x ++ "  ".data ++ joinTwoSpace xs

/-- `href.replace(/^tel:/i, "")`. -/
def stripTel (l : List Char) : List Char :=
  if startsL "tel:".data (lowerL l) then l.drop 4 else l

/-- The positional-preference line scan and joined-text fallback of
`extractPhone`. -/
def extractPhoneLines (lines : List (List Char)) : List Char :=
  match [1, 2, 0, 3].findSome? (fun i =>
      let L := lineAt lines i
      if L = [] || time12hTest L then none else phoneFirst L) with
  | some m => tidyPhoneL m
  | none =>
    let all := joinTwoSpace lines
    if !(time12hTest all) then
      match phoneFirst all with
      | some m => tidyPhoneL m
      | none => []
    else []

/-- `extractPhone(row, lines)`. -/
def extractPhoneL (telHref : Option (List Char)) (lines : List (List Char)) : List Char :=
  match telHref with
  | some h =>
    let fromHref := trimL (stripTel h)
    if fromHref ≠ [] then tidyPhoneL fromHref else extractPhoneLines lines
  | none => extractPhoneLines lines

/-- `readViaSel`, with the selector lookup abstracted into the row
environment. -/
def readViaSelM (field : Option String) : Option (List Char) :=
  field.bind (fun t => if t.data ≠ [] then some (trimL t.data) else none)

/-- `a || b` on the script's string-or-null values. -/
def jsOrS (a : Option (List Char)) (b : Option (List Char)) : Option (List Char) :=
  match a with
  | some s => if s ≠ [] then some s else b
  | none => b

/-- `parseRow(row)` (driver-ops.js / user script). -/
def parseRow (row : RowEnv) : DriverRecord :=
  let text := row.innerText.data
  let lines := rowLines text
  let name0 := firstLineL text
  let name := if name0 ≠ [] then name0 else "[unknown]".data
  let phone := extractPhoneL (row.telHref.map String.data) lines
  let projectedRTS :=
    (jsOrS (readViaSelM row.projectedRTSText)
      (oneCap text [rtsMatchAt, rtsAltMatchAt])).getD []
  let avgPerHour :=
    (jsOrS (readViaSelM row.avgPerHourText) (oneCap text [avgMatchAt])).bind numQ
  let lastHourPace :=
    (jsOrS (readViaSelM row.lastHourPaceText) (oneCap text [paceMatchAt])).bind numQ
  let stopsLeft :=
    (stopsPairFirst text).map (fun dt => max 0 ((dt.2 : Int) - (dt.1 : Int)))
  { key := ⟨normL name⟩ ++ "|" ++ (⟨normL phone⟩ : String)
    name := ⟨name⟩
    number := ⟨phone⟩
    projectedRTS := ⟨projectedRTS⟩
    avgPerHour := avgPerHour
    lastHourPace := lastHourPace
    stopsLeft := stopsLeft }

def MAX_SCROLL_LOOPS : Nat := 160

def STAGNANT_THRESHOLD : Nat := 7

structure DriverScanEnv where
  rowsAt : Nat → List (Nat × RowEnv)
  atBottomAt : Nat → Bool
  initialRows : List Nat

/-- One pass of the inner `for (const row of rows)` collection: rows whose
identity was already tracked are skipped, new ones are tracked and their
parse appended. -/
def scanStep (st : List Nat × List DriverRecord) (rows : List (Nat × RowEnv)) :
    List Nat × List DriverRecord :=
  rows.foldl
    (fun so r => if r.1 ∈ so.1 then so else (so.1 ++ [r.1], so.2 ++ [parseRow r.2]))
    st

/-- The scan loop of `collectAllDrivers`; returns the records and the
number of loop iterations executed. -/
def collectGo (env : DriverScanEnv) :
    Nat → Nat → List Nat → List DriverRecord → Nat → Nat → List DriverRecord × Nat
  | 0, i, _, out, _, _ => (out, i)
  | fuel + 1, i, seen, out, lastCount, stagnant =>
    let so := scanStep (seen, out) (env.rowsAt i)
    let stagnant2 := if so.2.length = lastCount then stagnant + 1 else 0
    if env.atBottomAt i && decide (STAGNANT_THRESHOLD ≤ stagnant2) then (so.2, i + 1)
    else collectGo env fuel (i + 1) so.1 so.2 so.2.length stagnant2

/-- `collectAllDrivers`: the pre-loop cleanup deletes the tracker entries
of currently-present rows, then the loop runs from a fresh accumulator. -/
def collectAllDrivers (env : DriverScanEnv) (tracked : List Nat) :
    List DriverRecord × Nat :=
  collectGo env MAX_SCROLL_LOOPS 0
    (tracked.filter (fun r => !(env.initialRows.contains r))) [] 0 0

/-- State (tracked ids, output) before iteration `i`. -/
def cumStateP (env : DriverScanEnv) (seen0 : List Nat) : Nat → List Nat × List DriverRecord
  | 0 => (seen0, [])
  | i + 1 => scanStep (cumStateP env seen0 i) (env.rowsAt i)

def outLenP (env : DriverScanEnv) (seen0 : List Nat) (i : Nat) : Nat :=
  (cumStateP env seen0 i).2.length

/-- Stagnation counter at the start of iteration `i` (`stagP (i+1)` is the
value the loop compares against the threshold during iteration `i`). -/
def stagP (env : DriverScanEnv) (seen0 : List Nat) : Nat → Nat
  | 0 => 0
  | i + 1 =>
    if outLenP env seen0 (i + 1) = outLenP env seen0 i then stagP env seen0 i + 1 else 0

/-- The loop breaks during iteration `j` exactly when the container is at
its end and the count has stagnated past the threshold. -/
def stopCond (env : DriverScanEnv) (seen0 : List Nat) (j : Nat) : Bool :=
  env.atBottomAt j && decide (STAGNANT_THRESHOLD ≤ stagP env seen0 (j + 1))

/-- `/\bStop\s*(\d{1,4})\b/i` at position `p`: the bounded greedy
`\d{1,4}` succeeds only when the digit run has length 1-4 and a word
boundary follows (a longer run leaves a digit after every shorter
attempt). -/
def stopLabelAt (l : List Char) (p : Nat) : Option Nat :=
  if boundaryBefore l p then
    (litCIAt l "stop".data p).bind (fun i =>
      let s := wsSkip l i
      let r := digitRunLen l s
      if 1 ≤ r && r ≤ 4 && boundaryAfter l (s + r) then
        some (digitsToNat ((l.take (s + r)).drop s))
      else none)
  else none

def stopLabelFirst (l : List Char) : Option Nat :=
  match (List.range l.length).find? (fun p => (stopLabelAt l p).isSome) with
  | some p => stopLabelAt l p
  | none => none

/-- `/^(\d{1,4})(?:\s|$)/`. -/
def linePreNum (l : List Char) : Option Nat :=
  let r := digitRunLen l 0
  if 1 ≤ r && r ≤ 4 &&
      (match charAt l r with | none => true | some c => isJSpace c) then
    some (digitsToNat (l.take r))
  else none

/-- `/^\d{1,4}$/`. -/
def lineAllNum (l : List Char) : Option Nat :=
  let r := digitRunLen l 0
  if 1 ≤ r && r ≤ 4 && r = l.length then some (digitsToNat l) else none

/-- `lines.join(" ")`. -/
def joinOneSpace : List (List Char) → List Char
  | [] => []
  | [x] => x
  | x :: xs => x ++ [' '] ++ joinOneSpace xs

/-- `/\bat\s*\d{1,2}:\d{2}\s*(am|pm)\b/i` at `p` (the `\d{1,2}`
alternatives are disjoint, see `timeCapAt`). -/
def atTimeAt (l : List Char) (p : Nat) : Bool :=
  boundaryBefore l p &&
  (match litCIAt l "at".data p with
   | some i =>
     let s := wsSkip l i
     let tail := fun (j : Nat) =>
       let r := wsSkip l j
       ((litCIAt l "am".data r).isSome || (litCIAt l "pm".data r).isSome) &&
         boundaryAfter l (r + 2)
     (isDigitAt l s && isDigitAt l (s + 1) && charAt l (s + 2) = some ':' &&
        isDigitAt l (s + 3) && isDigitAt l (s + 4) && tail (s + 5)) ||
     (isDigitAt l s && charAt l (s + 1) = some ':' && isDigitAt l (s + 2) &&
        isDigitAt l (s + 3) && tail (s + 4))
   | none => false)

def atTimeTest (l : List Char) : Bool :=
  (List.range l.length).any (fun p => atTimeAt l p)

/-- `/\bcompleted\b/i`. -/
def completedTest (l : List Char) : Bool :=
  (List.range l.length).any (fun p =>
    boundaryBefore l p && (litCIAt l "completed".data p).isSome &&
      boundaryAfter l (p + 9))

/-- One parsed stop header: sequence number (when parsable) and
completion flag. -/
structure SH where
  stopNum : Int
  done : Bool
deriving Repr, DecidableEq

/-- `parseStopHeader(el)` of `src/unnamed/part_001` (box text given by the
environment): sequence number from the Stop-label pattern, then a
digits-then-space line, then an all-digits line; completion from the
"at H:MM am/pm" timestamp or a "completed" token. -/
def parseStopHeaderL (boxText : List Char) : Option Int × Bool :=
  let raw := trimL boxText
  let lines := rowLines raw
  let textAll := joinOneSpace lines
  let stopNum : Option Int :=
    match stopLabelFirst textAll with
    | some v => some (v : Int)
    | none =>
      match lines.findSome? linePreNum with
      | some v => some (v : Int)
      | none => (lines.findSome? lineAllNum).map (fun v => (v : Int))
  let done := atTimeTest textAll || completedTest textAll
  (stopNum, done)

/-- `seen.set(p.stopNum, p)`: a JS `Map` update keeps the original
insertion position of an existing key and appends a new one. -/
def seenSet (m : List (Int × SH)) (k : Int) (v : SH) : List (Int × SH) :=
  if (m.lookup k).isSome then m.map (fun kv => if kv.1 = k then (k, v) else kv)
  else m ++ [(k, v)]

/-- The per-iteration header pass: parsable headers enter the map. -/
def seenUpdate (m : List (Int × SH)) (phs : List (Option Int × Bool)) : List (Int × SH) :=
  phs.foldl
    (fun m p => match p.1 with | some n => seenSet m n ⟨n, p.2⟩ | none => m) m

/-- Stable insertion step: `a` goes after every element whose key is not
greater. -/
def insertSorted (a : SH) : List SH → List SH
  | [] => [a]
  | b :: t => if decide (b.stopNum ≤ a.stopNum) then b :: insertSorted a t else a :: b :: t

/-- A stable ascending sort by `stopNum`, the behaviour of the script's
`.sort((a, b) => a.stopNum - b.stopNum)` (JS array sort is stable). -/
def stableSortByNum (l : List SH) : List SH :=
  l.foldl (fun acc a => insertSorted a acc) []

/-- `[...seen.values()].filter(x => !x.done).sort((a,b) => a.stopNum - b.stopNum)`. -/
def remainingOf (m : List (Int × SH)) : List SH :=
  stableSortByNum ((m.map Prod.snd).filter (fun x => !x.done))

structure StopScanEnv where
  headersAt : Nat → List (List Char)
  atBottomAt : Nat → Bool

structure CollectStops where
  remaining : List SH
  target : Option SH
deriving Repr, DecidableEq

/-- `Math.max(1, Number(nthRemaining) || 5)` (0 is falsy). -/
def jsWant (nthRemaining : Int) : Nat :=
  (max 1 (if nthRemaining = 0 then 5 else nthRemaining)).toNat

def collectStopsGo (env : StopScanEnv) (want : Nat) :
    Nat → Nat → List (Int × SH) → Nat → Nat → CollectStops
  | 0, _, seen, _, _ =>
    let rem := remainingOf seen
    ⟨rem, rem.get? (want - 1)⟩
  | fuel + 1, i, seen, lastSeen, stagnant =>
    let seen2 := seenUpdate seen ((env.headersAt i).map parseStopHeaderL)
    let rem := remainingOf seen2
    if want ≤ rem.length then ⟨rem, rem.get? (want - 1)⟩
    else
      let stagnant2 := if seen2.length = lastSeen then stagnant + 1 else 0
      if env.atBottomAt i && decide (STAGNANT_THRESHOLD ≤ stagnant2) then
        ⟨rem, rem.get? (want - 1)⟩
      else collectStopsGo env want fuel (i + 1) seen2 seen2.length stagnant2

/-- `collectRemainingStopsNth(nthRemaining)`. -/
def collectRemainingStopsNth (env : StopScanEnv) (nthRemaining : Int) : CollectStops :=
  collectStopsGo env (jsWant nthRemaining) MAX_SCROLL_LOOPS 0 [] 0 0

/-- The entries a fresh pass over headers with pairwise-distinct parsable
sequence numbers produces. -/
def parsedEntries (phs : List (Option Int × Bool)) : List (Int × SH) :=
  phs.filterMap (fun p => p.1.map (fun n => (n, SH.mk n p.2)))

mutual
inductive JVal where
  | jnull : JVal
  | jbool : Bool → JVal
  | jnum : Int → JVal
  | jstr : List Char → JVal
  | jarr : JItems → JVal
  | jobj : JFields → JVal
inductive JItems where
  | inil : JItems
  | icons : JVal → JItems → JItems
inductive JFields where
  | fnil : JFields
  | fcons : List Char → JVal → JFields → JFields
end

open JVal JItems JFields

def jArrOf : List JVal → JVal :=
  fun l => jarr (l.foldr icons inil)

def jObjOf : List (List Char × JVal) → JVal :=
  fun l => jobj (l.foldr (fun kv acc => fcons kv.1 kv.2 acc) fnil)

def itemsList : JItems → List JVal
  | inil => []
  | icons v rest => v :: itemsList rest

def fieldsList : JFields → List (List Char × JVal)
  | fnil => []
  | fcons k v rest => (k, v) :: fieldsList rest

/-- JS truthiness of a JSON value (`NaN` does not arise in this model). -/
def jTruthy : JVal → Bool
  | jnull => false
  | jbool b => b
  | jnum n => decide (n ≠ 0)
  | jstr s => decide (s ≠ [])
  | jarr _ => true
  | jobj _ => true

def jIsNull : JVal → Bool
  | jnull => true
  | _ => false

/-- `v && typeof v === "object"`: a non-null object or array. -/
def objLike : JVal → Bool
  | jarr _ => true
  | jobj _ => true
  | _ => false

/-- Field access distinguishing a missing key (for `in` tests). -/
def jgetOpt (v : JVal) (k : List Char) : Option JVal :=
  match v with
  | jobj fields => (fieldsList fields).lookup k
  | _ => none

/-- Field access `v.k` / `v?.k`: `undefined` (here `jnull`) on a missing
key or a non-object receiver. -/
def jget (v : JVal) (k : List Char) : JVal :=
  (jgetOpt v k).getD jnull

/-- JS `a || b` on JSON values. -/
def jor (a b : JVal) : JVal := if jTruthy a then a else b

/-- JS `a ?? b` on JSON values. -/
def jnn (a b : JVal) : JVal := match a with | jnull => b | _ => a

/-- `x[i]` on a JS array (`undefined` out of range or on a non-array). -/
def jIdx (v : JVal) (i : Nat) : JVal :=
  match v with
  | jarr items => ((itemsList items).get? i).getD jnull
  | _ => jnull

/-- Decimal digits of a natural number. -/
def natChars (n : Nat) : List Char := Nat.toDigits 10 n

/-- `String(n)` for an integer JS number. -/
def intChars (i : Int) : List Char :=
  if i < 0 then '-' :: natChars i.natAbs else natChars i.toNat

mutual
/-- `String(v)`; an array stringifies as its comma-joined elements with
null/undefined elements blank, an object as `[object Object]`. -/
def jToString : JVal → List Char
  | jnull => "null".data
  | jbool true => "true".data
  | jbool false => "false".data
  | jnum n => intChars n
  | jstr s => s
  | jobj _ => "[object Object]".data
  | jarr items => jToStringItems items
def jToStringItems : JItems → List Char
  | inil => []
  | icons v inil => (match v with | jnull => [] | w => jToString w)
  | icons v (icons w rest) =>
    (match v with | jnull => [] | x => jToString x) ++ ',' ::
      jToStringItems (icons w rest)
end

open JVal

/-- `getStopsFromJSON(j)`. -/
def getStopsFromJSON (j : JVal) : JVal :=
  jor (jget (jget j "itineraryDetails".data) "stops".data)
    (jor (jget (jget j "itineraryDetails".data) "itineraryStops".data)
      (jor (jget (jget j "itineraryDetails".data) "stopDetails".data)
        (jor (jget (jget j "itineraryDetails".data) "routeStops".data)
          (jor (jget (jget j "itineraryDetails".data) "tasks".data)
            (jor (jget j "stops".data) (jArrOf []))))))

/-- `getStopSeq(stop)`: the `??` chain over the sequence-number fields. -/
def getStopSeq (stop : JVal) : JVal :=
  jnn (jget stop "sequenceNumber".data)
    (jnn (jget stop "stopNum".data)
      (jnn (jget stop "stopNumber".data)
        (jnn (jget stop "stopSequence".data)
          (jget stop "sequence".data))))

/-- `String(x).toUpperCase().includes(pat)`. -/
def upIncludes (x : JVal) (pat : List Char) : Bool :=
  containsSub pat (upperL (jToString x))

/-- `isPickupOrReturn(stop)`. -/
def isPickupOrReturn (stop : JVal) : Bool :=
  let t := jor (jget stop "itineraryStopType".data)
    (jor (jget stop "stopType".data) (jstr []))
  if upIncludes t "PICK".data || upIncludes t "RETURN".data then true
  else
    let tasks := match jget stop "tasks".data with | jarr l => itemsList l | _ => []
    tasks.any (fun x =>
      upIncludes (jor (jget x "taskType".data) (jstr [])) "PICK".data ||
      upIncludes (jor (jget x "taskType".data) (jstr [])) "RETURN".data)

/-- `isStopCompleted(stop)`. -/
def isStopCompleted (stop : JVal) : Bool :=
  let tasks := match jget stop "tasks".data with | jarr l => itemsList l | _ => []
  tasks.any (fun t =>
    upIncludes (jor (jget t "executionStatus".data) (jstr [])) "COMPLETE".data)

/-- The numeric sort key `a.seq - b.seq` uses; the sequence fields carried
by itinerary stops are numbers. -/
def seqKey : JVal → Int
  | jnum n => n
  | _ => 0

structure JHit where
  seq : JVal
  stop : JVal

/-- Stable ascending insertion by `seqKey`, the behaviour of
`.sort((a, b) => a.seq - b.seq)`. -/
def insertSortedHit (a : JHit) : List JHit → List JHit
  | [] => [a]
  | b :: t =>
    if decide (seqKey b.seq ≤ seqKey a.seq) then b :: insertSortedHit a t
    else a :: b :: t

def stableSortHits (l : List JHit) : List JHit :=
  l.foldl (fun acc a => insertSortedHit a acc) []

/-- `getNthRemainingStopFromJSON(itin, nth)`. -/
def getNthRemainingStopFromJSON (itin : JVal) (nth : Int) : Option JHit :=
  match getStopsFromJSON itin with
  | jarr stops =>
    let remaining := stableSortHits
      (((itemsList stops).filter (fun s =>
          !(jIsNull (getStopSeq s)) &&
          !(isPickupOrReturn s) && !(isStopCompleted s))).map
        (fun s => JHit.mk (getStopSeq s) s))
    if nth - 1 < 0 then none
    else remaining.get? (nth - 1).toNat
  | _ => none

open JVal

open JVal

/-- Integer result of JS `Number(s)` on a trimmed numeric string; the
sequence numbers in the payload are integers. -/
def strNumInt (s : List Char) : Option Int :=
  match trimL s with
  | [] => none
  | '-' :: ds =>
    if ds ≠ [] ∧ ds.all (fun c => c.isDigit) then some (-(digitsToNat ds : Int))
    else none
  | '+' :: ds =>
    if ds ≠ [] ∧ ds.all (fun c => c.isDigit) then some (digitsToNat ds)
    else none
  | ds =>
    if ds.all (fun c => c.isDigit) then some (digitsToNat ds) else none

/-- `asNum(v)`: a finite number, or a non-blank numeric string. -/
def asNum : JVal → Option Int
  | jnum n => some n
  | jstr s => strNumInt s
  | _ => none

def stopNumKeys : List (List Char) :=
  ["stopNumber".data, "stopNum".data, "stopSequenceNumber".data,
   "stopSequence".data, "sequenceNumber".data, "sequence".data,
   "stopIndex".data, "index".data, "order".data, "stopIdNumber".data]

/-- The key loop of `pickStopNum` on one object: `if (k in o)` then
`asNum(o[k])`, returning the first non-null result. -/
def pickFrom (o : JVal) : Option Int :=
  stopNumKeys.findSome? (fun k => (jgetOpt o k).bind asNum)

/-- `pickStopNum(o)`. -/
def pickStopNum (o : JVal) : Option Int :=
  if objLike o then
    match pickFrom o with
    | some n => some n
    | none =>
      let nested := jor (jget o "stop".data)
        (jor (jget o "stopInfo".data) (jget o "stopDetails".data))
      if objLike nested then pickFrom nested else none
  else none

/-- One pass of `.replace(/\s+,/g, ",")`: every whitespace run directly
before a comma is deleted. -/
def sqGo : Nat → List Char → List Char
  | 0, l => l
  | _ + 1, [] => []
  | fuel + 1, c :: rest =>
    if isJSpace c then
      match (c :: rest).dropWhile isJSpace with
      | ',' :: tail => ',' :: sqGo fuel tail
      | _ => (c :: rest).takeWhile isJSpace ++ sqGo fuel ((c :: rest).dropWhile isJSpace)
    else c :: sqGo fuel rest

def squashWSComma (l : List Char) : List Char := sqGo l.length l

/-- `joinParts(parts)`: keep truthy parts, stringify and trim them, drop
blanks, join with newlines, and clean the result. -/
def joinParts (parts : List JVal) : List Char :=
  cleanAddressL (List.intercalate ['\n']
    (((parts.filter jTruthy).map (fun x => trimL (jToString x))).filter
      (fun s => s ≠ [])))

def maybeTextKeys : List (List Char) :=
  ["formattedAddress".data, "addressText".data, "fullAddress".data,
   "addressString".data]

/-- One candidate test `typeof c === "string" && c.trim()`, returning the
cleaned string on success. -/
def strClean (c : JVal) : Option (List Char) :=
  match c with
  | jstr s => if trimL s ≠ [] then some (cleanAddressL s) else none
  | _ => none

/-- `extractAddressFromObj(o)`. -/
def extractAddressFromObj (o : JVal) : Option (List Char) :=
  if objLike o then
    let candidates : List JVal :=
      [jget o "address".data, jget o "deliveryAddress".data,
       jget o "shipToAddress".data, jget o "destinationAddress".data,
       jget (jget o "location".data) "address".data,
       jget (jget o "location".data) "destinationAddress".data,
       jget o "stopAddress".data, jget o "addressInfo".data,
       jget o "customerAddress".data]
    match candidates.findSome? strClean with
    | some a => some a
    | none =>
      let addrObj := jor ((candidates.find? objLike).getD jnull)
        (jor (jget (jget o "destination".data) "address".data)
          (jor (jget (jget o "customer".data) "address".data)
            (jget o "locationAddress".data)))
      let comboRes : Option (List Char) :=
        if objLike addrObj then
          let aLines := jget addrObj "addressLines".data
          let lns := jget addrObj "lines".data
          let line1 := jor (jget addrObj "addressLine1".data)
            (jor (jget addrObj "line1".data)
              (jor (jget addrObj "street".data)
                (jor (jget addrObj "street1".data)
                  (jor (jget addrObj "address1".data)
                    (jor (jget addrObj "addressLine".data)
                      (jor (jIdx aLines 0) (jIdx lns 0)))))))
          let line2 := jor (jget addrObj "addressLine2".data)
            (jor (jget addrObj "line2".data)
              (jor (jget addrObj "unit".data)
                (jor (jget addrObj "apt".data)
                  (jor (jget addrObj "suite".data)
                    (jor (jIdx aLines 1) (jIdx lns 1))))))
          let city := jor (jget addrObj "city".data)
            (jor (jget addrObj "town".data) (jget addrObj "locality".data))
          let state := jor (jget addrObj "state".data)
            (jor (jget addrObj "region".data)
              (jor (jget addrObj "stateCode".data) (jget addrObj "province".data)))
          let zip := jor (jget addrObj "zip".data)
            (jor (jget addrObj "zipCode".data)
              (jor (jget addrObj "postalCode".data) (jget addrObj "postcode".data)))
          let csz := trimL (squashWSComma (List.intercalate ", ".data
            (([city, state, zip].filter jTruthy).map jToString)))
          let combo := joinParts [line1, line2, jstr csz]
          if combo ≠ [] then some combo else none
        else none
      match comboRes with
      | some c => some c
      | none => maybeTextKeys.findSome? (fun k => strClean (jget o k))
  else none

/-- Insertion at one visited node: a parsable stop number with a truthy
address enters the index unless the key is already present. -/
def idxInsert (idx : List (List Char × List Char)) (o : JVal) :
    List (List Char × List Char) :=
  match pickStopNum o with
  | none => idx
  | some n =>
    match extractAddressFromObj o with
    | none => idx
    | some addr =>
      if addr ≠ [] ∧ (idx.lookup (intChars n)).isNone then
        idx ++ [(intChars n, addr)]
      else idx

mutual
/-- The `walk` of `buildStopAddressIndex`: visit the node, then recurse
into array elements and into object-valued fields. -/
def walkV (idx : List (List Char × List Char)) : JVal → List (List Char × List Char)
  | jarr items => walkI (idxInsert idx (jarr items)) items
  | jobj fields => walkF (idxInsert idx (jobj fields)) fields
  | _ => idx
def walkI (idx : List (List Char × List Char)) : JItems → List (List Char × List Char)
  | JItems.inil => idx
  | JItems.icons v rest => walkI (walkV idx v) rest
def walkF (idx : List (List Char × List Char)) : JFields → List (List Char × List Char)
  | JFields.fnil => idx
  | JFields.fcons _ v rest =>
    walkF (if objLike v then walkV idx v else idx) rest
end

def buildStopAddressIndex (j : JVal) : List (List Char × List Char) :=
  walkV [] j

open JVal

open JVal

def setAssoc {α β : Type} [BEq α] [LawfulBEq α] [DecidableEq α] (m : List (α × β)) (k : α) (v : β) :
    List (α × β) :=
  if (m.lookup k).isSome then m.map (fun kv => if kv.1 = k then (k, v) else kv)
  else m ++ [(k, v)]

def eraseAssoc {α β : Type} [BEq α] [LawfulBEq α] [DecidableEq α] (m : List (α × β)) (k : α) :
    List (α × β) :=
  m.filter (fun kv => kv.1 ≠ k)

/-- Network capture state: itinerary documents by ID and the memoized
per-ID address indexes. -/
structure NetState where
  byId : List (List Char × JVal)
  addrIndex : List (List Char × List (List Char × List Char))

def itinMarker : List Char := "/operations/execution/api/itineraries/".data

/-- A match of `RX_ITIN` starting at offset `p`: the marker literal
(case-insensitively) followed by a non-empty run of `[^/? ]` characters,
which is the captured ID. -/
def itinIdAt (url : List Char) (p : Nat) : Option (List Char) :=
  if startsL itinMarker (lowerL (url.drop p)) then
    let cap := (url.drop (p + itinMarker.length)).takeWhile
      (fun c => !(c = '/' ∨ c = '?' ∨ c = ' '))
    if cap ≠ [] then some cap else none
  else none

/-- Leftmost match of `RX_ITIN` over the URL. -/
def extractItinId (url : List Char) : Option (List Char) :=
  (List.range (url.length + 1)).findSome? (itinIdAt url)

/-- `saveIfItinerary(url, j)`: store the document under its itinerary ID
and drop any memoized address index for that ID. -/
def saveIfItinerary (url : List Char) (j : Option JVal) (st : NetState) : NetState :=
  match extractItinId url with
  | none => st
  | some id =>
    match j with
    | none => st
    | some jv =>
      if jTruthy jv then
        { byId := setAssoc st.byId id jv, addrIndex := eraseAssoc st.addrIndex id }
      else st

/-- `getItineraryJSON()`: cached document if truthy, otherwise the fetch
result (`fetched`, `none` for a failed fetch), which when truthy is stored
under the ID with the memoized index for the ID invalidated. -/
def getItineraryJSON (st : NetState) (itineraryId serviceAreaId : Option (List Char))
    (fetched : Option JVal) : Option JVal × NetState :=
  match itineraryId, serviceAreaId with
  | some id, some sa =>
    if id = [] ∨ sa = [] then (none, st)
    else
      match st.byId.lookup id with
      | some cached =>
        if jTruthy cached then (some cached, st)
        else
          match fetched with
          | none => (none, st)
          | some j =>
            if jTruthy j then
              (some j, ⟨setAssoc st.byId id j, eraseAssoc st.addrIndex id⟩)
            else (some j, st)
      | none =>
        match fetched with
        | none => (none, st)
        | some j =>
          if jTruthy j then
            (some j, ⟨setAssoc st.byId id j, eraseAssoc st.addrIndex id⟩)
          else (some j, st)
  | _, _ => (none, st)

/-- `getJsonAddressForStop(stopNum, itinJson)`: memoize the built index
under the itinerary ID, then look the stop number up and clean the hit.
Returns the answer and the updated memo store. -/
def getJsonAddressForStop (itinId : Option (List Char)) (stopNum : Int)
    (itinJson : Option JVal)
    (ast : List (List Char × List (List Char × List Char))) :
    Option (List Char) × List (List Char × List (List Char × List Char)) :=
  match itinId with
  | none => (none, ast)
  | some id =>
    if id = [] then (none, ast)
    else
      match itinJson with
      | none => (none, ast)
      | some j =>
        if jTruthy j then
          let built := buildStopAddressIndex j
          let idx := (ast.lookup id).getD built
          let ast2 := if (ast.lookup id).isSome then ast else setAssoc ast id built
          match idx.lookup (intChars stopNum) with
          | some a => (if a ≠ [] then some (cleanAddressL a) else none, ast2)
          | none => (none, ast2)
        else (none, ast)

structure CopyOutcome where
  stopNum : Int
  full : List Char
  raw : SH
  source : List Char
deriving Repr, DecidableEq

/-- `copyNthRemainingStopAddress(nthRemaining, itinJson)`: resolve the
target stop, try the JSON index, and only on a miss fall back to the DOM
oracle `dom` (standing for `domExpandAndGetAddressForStop`).  The third
component records whether the DOM path was invoked. -/
def copyNthRemainingStopAddress (env : StopScanEnv) (itinId : Option (List Char))
    (dom : Int → Option (List Char)) (nthRemaining : Int) (itinJson : Option JVal)
    (ast : List (List Char × List (List Char × List Char))) :
    Option CopyOutcome × List (List Char × List (List Char × List Char)) × Bool :=
  let want : Int := max 1 (if nthRemaining = 0 then 5 else nthRemaining)
  let res := collectRemainingStopsNth env want
  match res.target with
  | none => (none, ast, false)
  | some t =>
    if t.stopNum = 0 then (none, ast, false)
    else
      let gj := getJsonAddressForStop itinId t.stopNum itinJson ast
      let domBranch := fun (ast2 : List (List Char × List (List Char × List Char))) =>
        match dom t.stopNum with
        | none => ((none : Option CopyOutcome), ast2, true)
        | some d =>
          if d = [] then (none, ast2, true)
          else
            let full := cleanAddressL d
            if full = [] then (none, ast2, true)
            else (some ⟨t.stopNum, full, t, "dom".data⟩, ast2, true)
      match gj.1 with
      | some s =>
        if s ≠ [] then (some ⟨t.stopNum, cleanAddressL s, t, "json".data⟩, gj.2, false)
        else domBranch gj.2
      | none => domBranch gj.2

/-- Inputs of one `requestAddress(row)` call that are fixed before the
call: the row fields, the cache-hit test, and how the awaited
`openToggleCopyStop` workflow would end. -/
structure ReqEnv where
  rowName : List Char
  rowKey : List Char
  cacheHas : Bool
  workflowThrows : Bool
  workflowOk : Bool
  workflowAddress : List Char

inductive ReqOutcome where
  | noRow : ReqOutcome
  | busy : ReqOutcome
  | cachedHit : ReqOutcome
  | completed : Bool → ReqOutcome
deriving Repr, DecidableEq

/-- `requestAddress(row)` against the busy gate: the result, the final
state of `globalMutex._locked`, and how many times the workflow
(`openToggleCopyStop`) was started. -/
def requestAddress (locked : Bool) (env : ReqEnv) : ReqOutcome × Bool × Nat :=
  if env.rowName = [] then (ReqOutcome.noRow, locked, 0)
  else if locked then (ReqOutcome.busy, locked, 0)
  else if env.cacheHas then (ReqOutcome.cachedHit, locked, 0)
  else if env.workflowThrows then (ReqOutcome.completed false, false, 1)
  else
    (ReqOutcome.completed (env.workflowOk && decide (env.workflowAddress ≠ [])),
     false, 1)

/-- `LRUCache.get(key)`: a hit re-inserts the entry at the
most-recently-used end. -/
def lruGet {β : Type} (m : List (List Char × β)) (k : List Char) :
    Option β × List (List Char × β) :=
  match m.lookup k with
  | none => (none, m)
  | some v => (some v, eraseAssoc m k ++ [(k, v)])

/-- `LRUCache.set(key, value)`: an existing key is deleted first; a new
key on a full cache first evicts the first (least recently used) entry. -/
def lruSet {β : Type} (m : List (List Char × β)) (maxSize : Nat)
    (k : List Char) (v : β) : List (List Char × β) :=
  if (m.lookup k).isSome then eraseAssoc m k ++ [(k, v)]
  else if maxSize ≤ m.length then
    match m with
    | [] => [(k, v)]
    | _ :: t => t ++ [(k, v)]
  else m ++ [(k, v)]

open JVal

open JVal

/-- A stop list whose incomplete stops carry sequence numbers 2, 5 and 7,
presented identically on every poll, with the container at its end. -/
def env257 : StopScanEnv :=
  { headersAt := fun _ => ["Stop 2".data, "Stop 5".data, "Stop 7".data],
    atBottomAt := fun _ => true }

/-- A row whose phone is captured with a stray parenthesis. -/
def rowC8 : RowEnv :=
  { innerText := "Alice Smith\n(555) 123-4567\n12 / 30 stops",
    telHref := none, projectedRTSText := none,
    avgPerHourText := none, lastHourPaceText := none }

/-- The key the spec describes: normalized name, `|`, and the digits of
the phone. -/
def specKeyC8 (row : RowEnv) : String :=
  norm (parseRow row).name ++ "|" ++ digitsOnly (parseRow row).number

open JVal

def pickupStopC7 : JVal :=
  jObjOf [("sequenceNumber".data, jnum 1), ("stopType".data, jstr "PICKUP".data)]

def otherStopC7 : JVal := jObjOf [("sequenceNumber".data, jnum 2)]

def itinC7 : JVal := jObjOf [("stops".data, jArrOf [pickupStopC7, otherStopC7])]

def hitC7 : JHit := JHit.mk (jnum 2) otherStopC7

open JVal

open JVal

def env5C2 : StopScanEnv :=
  { headersAt := fun _ => ["Stop 5".data], atBottomAt := fun _ => true }

def itinJsonC2 : JVal :=
  jObjOf [("stops".data, jArrOf
    [jObjOf [("sequenceNumber".data, jnum 5),
             ("address".data, jstr "12 Oak St\nTown, IL 62704".data)]])]

/-- A DOM oracle that would yield a different, extractable address. -/
def domC2 : Int → Option (List Char) := fun _ => some "999 Wrong St".data

open JVal

open JVal

def urlC4 : List Char :=
  "https://x.example/operations/execution/api/itineraries/ITIN1?d=1".data

def newDocC4 : JVal :=
  jObjOf [("stops".data, jArrOf
    [jObjOf [("sequenceNumber".data, jnum 7),
             ("address".data, jstr "34 Elm St\nTown, IL 62704".data)]])]

/-- A state holding a stale document and a stale memoized index for the
same itinerary ID. -/
def staleStC4 : NetState :=
  { byId := [("ITIN1".data, jstr "old".data)],
    addrIndex := [("ITIN1".data, [("7".data, "Old Rd 9".data)])] }

/-- A concrete call environment: a named row, no cache hit, a workflow
that completes successfully. -/
def reqEnvC5 : ReqEnv :=
  { rowName := "Alice Smith".data, rowKey := "alice".data, cacheHas := false,
    workflowThrows := false, workflowOk := true,
    workflowAddress := "12 Oak St".data }

theorem head?_dropWhile {p : Char → Bool} :
    ∀ {l : List Char} {c}, (l.dropWhile p).head? = some c → p c = false := by
  intro l
  induction l with
  | nil => intro c h; simp [List.dropWhile] at h
  | cons a t ih =>
    intro c h
    by_cases hp : p a
    · rw [List.dropWhile_cons_of_pos hp] at h; exact ih h
    · rw [List.dropWhile_cons_of_neg hp] at h
      simp at h
      rw [← h]
      exact Bool.eq_false_iff.mpr hp

theorem noEdge_trimL (l : List Char) : NoEdge (trimL l) := by
  unfold trimL
  set A := l.dropWhile isJSpace with hA
  set X := A.reverse.dropWhile isJSpace with hX
  constructor
  · intro c h
    rw [List.head?_reverse] at h
    have hXne : X ≠ [] := by
      intro hnil; rw [hnil] at h; simp at h
    have hsuf : X <:+ A.reverse := List.dropWhile_suffix _
    obtain ⟨t, ht⟩ := hsuf
    have : A.reverse.getLast? = X.getLast? := by
      rw [← ht]; exact List.getLast?_append_of_ne_nil t hXne
    rw [h] at this
    rw [List.getLast?_reverse] at this
    rw [hA] at this
    exact head?_dropWhile this
  · intro c h
    rw [List.getLast?_reverse] at h
    exact head?_dropWhile h

theorem dropWhile_eq_self_of {p : Char → Bool} {l : List Char}
    (h : ∀ c, l.head? = some c → p c = false) : l.dropWhile p = l := by
  cases l with
  | nil => rfl
  | cons a t =>
    have := h a (by rfl)
    simp [List.dropWhile, this]

theorem trimL_eq_self {l : List Char} (h : NoEdge l) : trimL l = l := by
  unfold trimL
  rw [dropWhile_eq_self_of h.1]
  rw [dropWhile_eq_self_of (by intro c hc; rw [List.head?_reverse] at hc; exact h.2 c hc)]
  exact List.reverse_reverse l

theorem mem_trimL {l : List Char} {c : Char} (h : c ∈ trimL l) : c ∈ l := by
  unfold trimL at h
  rw [List.mem_reverse] at h
  have h2 := (List.dropWhile_suffix (l := (l.dropWhile isJSpace).reverse) isJSpace).subset h
  rw [List.mem_reverse] at h2
  exact (List.dropWhile_suffix isJSpace).subset h2

theorem splitNL_ne_nil : ∀ l : List Char, splitNL l ≠ [] := by
  intro l
  cases l with
  | nil => simp [splitNL]
  | cons c cs =>
    by_cases h : c = '\n' <;> simp [splitNL, h]
    cases hs : splitNL cs <;> simp

theorem mem_splitNL :
    ∀ {l piece : List Char}, piece ∈ splitNL l → ∀ c ∈ piece, c ∈ l ∧ c ≠ '\n' := by
  intro l
  induction l with
  | nil =>
    intro piece hp c hc
    simp [splitNL] at hp
    subst hp; simp at hc
  | cons a t ih =>
    intro piece hp c hc
    by_cases ha : a = '\n'
    · rw [ha] at hp ⊢
      simp [splitNL] at hp
      rcases hp with hp | hp
      · subst hp; simp at hc
      · have := ih hp c hc
        exact ⟨List.mem_cons_of_mem _ this.1, this.2⟩
    · simp only [splitNL, if_neg ha] at hp
      cases hs : splitNL t with
      | nil => exact absurd hs (splitNL_ne_nil t)
      | cons h0 t0 =>
        rw [hs] at hp
        simp at hp
        rcases hp with hp | hp
        · subst hp
          rcases List.mem_cons.mp hc with rfl | hc2
          · exact ⟨List.mem_cons_self _ _, ha⟩
          · have hh0 : h0 ∈ splitNL t := by rw [hs]; exact List.mem_cons_self _ _
            have := ih hh0 c hc2
            exact ⟨List.mem_cons_of_mem _ this.1, this.2⟩
        · have hmem : piece ∈ splitNL t := by rw [hs]; exact List.mem_cons_of_mem _ hp
          have := ih hmem c hc
          exact ⟨List.mem_cons_of_mem _ this.1, this.2⟩

theorem splitNL_single {l : List Char} (h : '\n' ∉ l) : splitNL l = [l] := by
  induction l with
  | nil => rfl
  | cons a t ih =>
    have ha : a ≠ '\n' := fun hc => h (hc ▸ List.mem_cons_self _ _)
    have ht : '\n' ∉ t := fun hc => h (List.mem_cons_of_mem _ hc)
    simp only [splitNL, if_neg ha, ih ht]

theorem mapCR_eq_self {l : List Char} (h : '\r' ∉ l) : mapCR l = l := by
  unfold mapCR
  induction l with
  | nil => rfl
  | cons a t ih =>
    have ha : a ≠ '\r' := fun hc => h (hc ▸ List.mem_cons_self _ _)
    simp [if_neg ha, ih (fun hc => h (List.mem_cons_of_mem _ hc))]

theorem not_cr_mem_mapCR {l : List Char} {c : Char} (h : c ∈ mapCR l) : c ≠ '\r' := by
  unfold mapCR at h
  obtain ⟨d, _, hd⟩ := List.mem_map.mp h
  by_cases hdr : d = '\r'
  · rw [hdr] at hd; simp at hd; rw [← hd]; decide
  · rw [if_neg hdr] at hd; rw [← hd]; exact hdr

theorem linesOf_mem_noNL {raw piece : List Char} (h : piece ∈ linesOf raw) :
    NoNL piece ∧ NoEdge piece ∧ piece ≠ [] := by
  unfold linesOf at h
  have h1 := List.mem_filter.mp h
  obtain ⟨q, hq, hqe⟩ := List.mem_map.mp h1.1
  refine ⟨?_, ?_, by simpa using h1.2⟩
  · intro c hc
    rw [← hqe] at hc
    have hcq := mem_trimL hc
    have := mem_splitNL hq c hcq
    exact ⟨this.2, not_cr_mem_mapCR this.1⟩
  · rw [← hqe]; exact noEdge_trimL q

theorem linesOf_single {t : List Char} (h1 : NoNL t) (h2 : NoEdge t) (h3 : t ≠ []) :
    linesOf t = [t] := by
  unfold linesOf
  have hcr : '\r' ∉ t := fun hc => (h1 _ hc).2 rfl
  have hnl : '\n' ∉ t := fun hc => (h1 _ hc).1 rfl
  rw [mapCR_eq_self hcr, splitNL_single hnl]
  simp [trimL_eq_self h2, h3]

theorem linesOf_nil : linesOf [] = [] := by decide

theorem charAt_take_lt {l : List Char} {e i : Nat} (h : i < e) :
    charAt (l.take e) i = charAt l i := by
  simp [charAt, List.get?_eq_getElem?, List.getElem?_take, h]

theorem charAt_take_ge {l : List Char} {e i : Nat} (h : e ≤ i) :
    charAt (l.take e) i = none := by
  simp [charAt, List.get?_eq_getElem?, List.getElem?_take, Nat.not_lt.mpr h]

theorem charAt_lt_length {l : List Char} {i : Nat} {c : Char}
    (h : charAt l i = some c) : i < l.length := by
  simp [charAt, List.get?_eq_getElem?] at h
  exact (List.getElem?_eq_some.mp h).1

theorem isDigitAt_lt_length {l : List Char} {i : Nat} (h : isDigitAt l i = true) :
    i < l.length := by
  unfold isDigitAt at h
  cases hc : charAt l i with
  | none => rw [hc] at h; simp at h
  | some c => exact charAt_lt_length hc

theorem isDigitAt_take_lt {l : List Char} {e i : Nat} (h : i < e) :
    isDigitAt (l.take e) i = isDigitAt l i := by
  unfold isDigitAt; rw [charAt_take_lt h]

theorem isWordAt_take_lt {l : List Char} {e i : Nat} (h : i < e) :
    isWordAt (l.take e) i = isWordAt l i := by
  unfold isWordAt; rw [charAt_take_lt h]

theorem isWordAt_take_ge {l : List Char} {e i : Nat} (h : e ≤ i) :
    isWordAt (l.take e) i = false := by
  unfold isWordAt; rw [charAt_take_ge h]; rfl

theorem digitsRun_take_lt {l : List Char} {e p n : Nat} (h : p + n ≤ e) :
    digitsRun (l.take e) p n = digitsRun l p n := by
  unfold digitsRun
  cases hr : (List.range n).all (fun k => isDigitAt l (p + k)) with
  | true =>
    rw [List.all_eq_true] at hr
    apply List.all_eq_true.mpr
    intro k hk
    rw [isDigitAt_take_lt (by have := List.mem_range.mp hk; omega)]
    exact hr k hk
  | false =>
    rw [Bool.eq_false_iff]
    intro hall
    rw [List.all_eq_true] at hall
    have hl : (List.range n).all (fun k => isDigitAt l (p + k)) = true := by
      apply List.all_eq_true.mpr
      intro k hk
      have hk2 : k < n := List.mem_range.mp hk
      rw [← @isDigitAt_take_lt l e (p + k) (by omega)]
      exact hall k hk
    rw [hr] at hl
    exact Bool.false_ne_true hl

theorem digitsRun_last {l : List Char} {p n : Nat} (hn : 0 < n)
    (h : digitsRun l p n = true) : isDigitAt l (p + (n - 1)) = true := by
  unfold digitsRun at h
  exact List.all_eq_true.mp h _ (List.mem_range.mpr (by omega))

/-- Structural facts extracted from a successful zip match. -/
theorem zipEndAt_facts {l : List Char} {p e : Nat} (h : zipEndAt l p = some e) :
    p + 5 ≤ e ∧ e ≤ p + 10 ∧ e ≤ l.length ∧ boundaryAfter l e = true ∧
      isDigitAt l (e - 1) = true ∧ boundaryBefore l p = true ∧ digitsRun l p 5 = true := by
  unfold zipEndAt at h
  by_cases h1 : (boundaryBefore l p && digitsRun l p 5) = true
  · rw [if_pos h1] at h
    have hb := (Bool.and_eq_true _ _).mp h1
    by_cases h2 : (charAt l (p + 5) = some '-' && digitsRun l (p + 6) 4 && boundaryAfter l (p + 10)) = true
    · rw [if_pos h2] at h
      have he : e = p + 10 := by simpa using h.symm
      subst he
      have h2s := (Bool.and_eq_true _ _).mp h2
      have h2ss := (Bool.and_eq_true _ _).mp h2s.1
      have hd9 : isDigitAt l (p + 6 + (4 - 1)) = true := digitsRun_last (by omega) h2ss.2
      have hd9e : isDigitAt l (p + 10 - 1) = true := by
        have : p + 6 + (4 - 1) = p + 10 - 1 := by omega
        rw [← this]; exact hd9
      refine ⟨by omega, by omega, ?_, h2s.2, hd9e, hb.1, hb.2⟩
      have := isDigitAt_lt_length hd9e
      omega
    · rw [if_neg h2] at h
      by_cases h3 : boundaryAfter l (p + 5) = true
      · rw [if_pos h3] at h
        have he : e = p + 5 := by simpa using h.symm
        subst he
        have hd4 : isDigitAt l (p + (5 - 1)) = true := digitsRun_last (by omega) hb.2
        have hd4e : isDigitAt l (p + 5 - 1) = true := by
          have : p + (5 - 1) = p + 5 - 1 := by omega
          rw [← this]; exact hd4
        refine ⟨by omega, by omega, ?_, h3, hd4e, hb.1, hb.2⟩
        have := isDigitAt_lt_length hd4e
        omega
      · rw [if_neg h3] at h; simp at h
  · rw [if_neg h1] at h; simp at h

/-- A zip match survives truncation at its own end. -/
theorem zipEndAt_take {l : List Char} {p e : Nat} (h : zipEndAt l p = some e) :
    zipEndAt (l.take e) p = some e := by
  have hf := zipEndAt_facts h
  unfold zipEndAt at h ⊢
  by_cases h1 : (boundaryBefore l p && digitsRun l p 5) = true
  · have hb := (Bool.and_eq_true _ _).mp h1
    have hbt : boundaryBefore (l.take e) p = true := by
      unfold boundaryBefore at hb ⊢
      rcases Bool.or_eq_true _ _ |>.mp hb.1 with hp0 | hw
      · simp at hp0; simp [hp0]
      · have hlt : p - 1 < e := by omega
        rw [isWordAt_take_lt hlt]
        rw [Bool.or_eq_true]
        right
        exact hw
    have hdt : digitsRun (l.take e) p 5 = true := by
      rw [digitsRun_take_lt (by omega)]; exact hb.2
    rw [if_pos h1] at h
    rw [if_pos (by rw [hbt, hdt]; rfl)]
    by_cases h2 : (charAt l (p + 5) = some '-' && digitsRun l (p + 6) 4 && boundaryAfter l (p + 10)) = true
    · rw [if_pos h2] at h
      have he : e = p + 10 := by simpa using h.symm
      subst he
      have h2s := (Bool.and_eq_true _ _).mp h2
      have h2ss := (Bool.and_eq_true _ _).mp h2s.1
      have hc5 : charAt (l.take (p + 10)) (p + 5) = some '-' := by
        rw [charAt_take_lt (by omega)]
        exact of_decide_eq_true h2ss.1
      have hr4 : digitsRun (l.take (p + 10)) (p + 6) 4 = true := by
        rw [digitsRun_take_lt (by omega)]; exact h2ss.2
      have hba : boundaryAfter (l.take (p + 10)) (p + 10) = true := by
        unfold boundaryAfter
        rw [isWordAt_take_ge (by omega)]
        rfl
      rw [if_pos (by rw [hr4, hba, decide_eq_true hc5]; rfl)]
    · rw [if_neg h2] at h
      by_cases h3 : boundaryAfter l (p + 5) = true
      · rw [if_pos h3] at h
        have he : e = p + 5 := by simpa using h.symm
        subst he
        have hc5 : charAt (l.take (p + 5)) (p + 5) = none := charAt_take_ge (by omega)
        have hlong : (charAt (l.take (p + 5)) (p + 5) = some '-' &&
            digitsRun (l.take (p + 5)) (p + 6) 4 && boundaryAfter (l.take (p + 5)) (p + 10)) = false := by
          rw [hc5]
          simp
        rw [if_neg (by rw [hlong]; simp)]
        have hba : boundaryAfter (l.take (p + 5)) (p + 5) = true := by
          unfold boundaryAfter
          rw [isWordAt_take_ge (by omega)]
          rfl
        rw [if_pos hba]
      · rw [if_neg h3] at h; simp at h
  · rw [if_neg h1] at h; simp at h

/-- Any zip match inside the truncated line lifts back to a match in the
original line. -/
theorem zipEndAt_lift {l : List Char} {p e q e' : Nat}
    (h : zipEndAt l p = some e) (ht : zipEndAt (l.take e) q = some e') :
    (zipEndAt l q).isSome = true := by
  have hf := zipEndAt_facts h
  have hft := zipEndAt_facts ht
  have hlen : (l.take e).length = e := by
    rw [List.length_take]
    omega
  -- all positions named by the truncated match are below e, except its end
  have hq4 : q + 5 ≤ e := by
    have := isDigitAt_lt_length hft.2.2.2.2.1
    rw [hlen] at this
    omega
  have hbb : boundaryBefore l q = true := by
    have hbt := hft.2.2.2.2.2.1
    unfold boundaryBefore at hbt ⊢
    rcases Bool.or_eq_true _ _ |>.mp hbt with hq0 | hw
    · rw [Bool.or_eq_true]; left; exact hq0
    · rw [Bool.or_eq_true]; right
      rw [isWordAt_take_lt (by omega)] at hw
      exact hw
  have hdr : digitsRun l q 5 = true := by
    have := hft.2.2.2.2.2.2
    rw [digitsRun_take_lt (by omega)] at this
    exact this
  have hbAfter : ∀ {i : Nat}, i ≤ e → boundaryAfter (l.take e) i = true →
      boundaryAfter l i = true := by
    intro i hie hb
    unfold boundaryAfter at hb ⊢
    by_cases hi : i < e
    · rw [isWordAt_take_lt hi] at hb; exact hb
    · have : i = e := by omega
      subst this
      exact hf.2.2.2.1
  unfold zipEndAt
  rw [if_pos (by rw [hbb, hdr]; rfl)]
  -- case on which branch the truncated match used
  unfold zipEndAt at ht
  rw [if_pos (by rw [hft.2.2.2.2.2.1]; have := hft.2.2.2.2.2.2; rw [this]; rfl)] at ht
  by_cases h2 : (charAt (l.take e) (q + 5) = some '-' && digitsRun (l.take e) (q + 6) 4 &&
      boundaryAfter (l.take e) (q + 10)) = true
  · -- the long alternative matched inside the truncation: it matches in l too
    rw [if_pos h2] at ht
    have he' : e' = q + 10 := by simpa using ht.symm
    subst he'
    have h2s := (Bool.and_eq_true _ _).mp h2
    have h2ss := (Bool.and_eq_true _ _).mp h2s.1
    have hq10 : q + 10 ≤ e := by
      have := isDigitAt_lt_length hft.2.2.2.2.1
      rw [hlen] at this
      omega
    have hc5 : charAt l (q + 5) = some '-' := by
      have := of_decide_eq_true h2ss.1
      rw [charAt_take_lt (by omega)] at this
      exact this
    have hr4 : digitsRun l (q + 6) 4 = true := by
      have := h2ss.2
      rw [digitsRun_take_lt (by omega)] at this
      exact this
    have hba : boundaryAfter l (q + 10) = true := hbAfter hq10 h2s.2
    rw [if_pos (by rw [hr4, hba, decide_eq_true hc5]; rfl)]
    rfl
  · -- the short alternative matched inside the truncation
    rw [if_neg h2] at ht
    by_cases h3 : boundaryAfter (l.take e) (q + 5) = true
    · rw [if_pos h3] at ht
      have hba5 : boundaryAfter l (q + 5) = true := hbAfter hq4 h3
      by_cases h4 : (charAt l (q + 5) = some '-' && digitsRun l (q + 6) 4 &&
          boundaryAfter l (q + 10)) = true
      · rw [if_pos h4]; rfl
      · rw [if_neg h4, if_pos hba5]; rfl
    · rw [if_neg h3] at ht; simp at ht

theorem firstZipFrom_spec {l : List Char} :
    ∀ {fuel p p' : Nat}, firstZipFrom l p fuel = some p' →
      p ≤ p' ∧ p' < p + fuel ∧ (zipEndAt l p').isSome = true ∧
        ∀ q, p ≤ q → q < p' → zipEndAt l q = none := by
  intro fuel
  induction fuel with
  | zero => intro p p' h; simp [firstZipFrom] at h
  | succ n ih =>
    intro p p' h
    unfold firstZipFrom at h
    by_cases hz : (zipEndAt l p).isSome = true
    · rw [if_pos hz] at h
      simp at h
      subst h
      exact ⟨Nat.le_refl _, by omega, hz, fun q h1 h2 => by omega⟩
    · rw [if_neg hz] at h
      obtain ⟨h1, h2, h3, h4⟩ := ih h
      refine ⟨by omega, by omega, h3, ?_⟩
      intro q hq1 hq2
      by_cases hqp : q = p
      · subst hqp
        cases hze : zipEndAt l q with
        | none => rfl
        | some e => rw [hze] at hz; simp at hz
      · exact h4 q (by omega) hq2

theorem firstZipFrom_found {l : List Char} :
    ∀ {fuel p0 p : Nat}, p0 ≤ p → p < p0 + fuel →
      (∀ q, p0 ≤ q → q < p → zipEndAt l q = none) → (zipEndAt l p).isSome = true →
      firstZipFrom l p0 fuel = some p := by
  intro fuel
  induction fuel with
  | zero => intro p0 p h1 h2; omega
  | succ n ih =>
    intro p0 p h1 h2 h3 h4
    unfold firstZipFrom
    by_cases hp : p0 = p
    · subst hp
      rw [if_pos h4]
    · have hz : zipEndAt l p0 = none := h3 p0 (Nat.le_refl _) (by omega)
      rw [if_neg (by rw [hz]; simp)]
      exact ih (by omega) (by omega) (fun q hq1 hq2 => h3 q (by omega) hq2) h4

/-- The leftmost zip match of the truncated line is the leftmost zip match
of the original line, and it ends exactly at the truncated line's end. -/
theorem zipStart_take {l : List Char} {p e : Nat}
    (hs : zipStart l = some p) (he : zipEndAt l p = some e) :
    zipStart (l.take e) = some p ∧ zipEndAt (l.take e) p = some e := by
  have hf := zipEndAt_facts he
  have htake : zipEndAt (l.take e) p = some e := zipEndAt_take he
  refine ⟨?_, htake⟩
  have hspec := firstZipFrom_spec hs
  have hlen : (l.take e).length = e := by
    rw [List.length_take]; omega
  unfold zipStart
  rw [hlen]
  apply firstZipFrom_found (Nat.zero_le _) (by omega) ?_ (by rw [htake]; rfl)
  intro q _ hq
  cases hq2 : zipEndAt (l.take e) q with
  | none => rfl
  | some e2 =>
    have := zipEndAt_lift he hq2
    have hnone := hspec.2.2.2 q (Nat.zero_le _) hq
    rw [hnone] at this
    simp at this

/-- Truncating at the leftmost zip match is idempotent. -/
theorem truncAtZip_take_self {l : List Char} {p e : Nat}
    (hs : zipStart l = some p) (he : zipEndAt l p = some e) :
    truncAtZip (l.take e) = l.take e ∧ hasZipL (l.take e) = true := by
  obtain ⟨h1, h2⟩ := zipStart_take hs he
  constructor
  · unfold truncAtZip
    rw [h1]
    simp only [h2]
    apply List.take_of_length_le
    rw [List.length_take]
    exact Nat.min_le_left _ _
  · unfold hasZipL
    rw [h1]
    rfl

theorem isPrefixOf_of_take {pat : List Char} :
    ∀ {l : List Char} {e : Nat}, pat.isPrefixOf (l.take e) = true →
      pat.isPrefixOf l = true := by
  induction pat with
  | nil => intro l e _; simp [List.isPrefixOf]
  | cons a t ih =>
    intro l e h
    cases l with
    | nil => simp at h
    | cons b m =>
      cases e with
      | zero => simp [List.isPrefixOf] at h
      | succ k =>
        rw [List.take_succ_cons] at h
        simp only [List.isPrefixOf, Bool.and_eq_true, beq_iff_eq] at h ⊢
        exact ⟨h.1, ih h.2⟩

theorem containsSub_of_take {pat : List Char} :
    ∀ {l : List Char} {e : Nat}, containsSub pat (l.take e) = true →
      containsSub pat l = true := by
  intro l
  induction l with
  | nil => intro e h; simpa using h
  | cons b m ih =>
    intro e h
    cases e with
    | zero =>
      simp only [List.take_zero] at h
      unfold containsSub at h
      unfold containsSub
      rw [Bool.or_eq_true]
      left
      exact isPrefixOf_of_take (e := 0) (l := b :: m) (by simpa using h)
    | succ k =>
      rw [List.take_succ_cons] at h
      unfold containsSub at h
      rw [Bool.or_eq_true] at h
      unfold containsSub
      rw [Bool.or_eq_true]
      rcases h with h | h
      · left
        exact isPrefixOf_of_take (e := k + 1) (l := b :: m) (by simpa using h)
      · right
        exact ih h

theorem lowerL_take (l : List Char) (e : Nat) :
    lowerL (l.take e) = (lowerL l).take e := by
  unfold lowerL
  exact List.map_take _ _ _

theorem keepLine_take {l : List Char} {e : Nat} (h : keepLine l = true) :
    keepLine (l.take e) = true := by
  unfold keepLine at h ⊢
  simp only [Bool.and_eq_true, Bool.not_eq_true'] at h ⊢
  obtain ⟨⟨h1, h2⟩, h3⟩ := h
  refine ⟨⟨?_, ?_⟩, ?_⟩
  · cases hp : startsL "edit in".data (lowerL (l.take e)) with
    | false => rfl
    | true =>
      unfold startsL at hp h1
      rw [lowerL_take] at hp
      rw [isPrefixOf_of_take hp] at h1
      exact h1
  · cases hp : startsL "driver aid".data (lowerL (l.take e)) with
    | false => rfl
    | true =>
      unfold startsL at hp h2
      rw [lowerL_take] at hp
      rw [isPrefixOf_of_take hp] at h2
      exact h2
  · cases hp : containsSub "geostudio".data (lowerL (l.take e)) with
    | false => rfl
    | true =>
      rw [lowerL_take] at hp
      rw [containsSub_of_take hp] at h3
      exact h3

theorem isJSpace_of_digit {c : Char} (h : c.isDigit = true) : isJSpace c = false := by
  rw [Bool.eq_false_iff]
  intro hs
  unfold isJSpace at hs
  simp only [Bool.or_eq_true, decide_eq_true_eq] at hs
  have hs2 : c = ' ' ∨ c = '\t' ∨ c = '\n' ∨ c = '\r' ∨ c = '\x0b' ∨ c = '\x0c' := by
    tauto
  rcases hs2 with rfl | rfl | rfl | rfl | rfl | rfl <;> exact absurd h (by decide)

theorem noEdge_take_digit {l : List Char} {e : Nat} (hE : NoEdge l)
    (hd : isDigitAt l (e - 1) = true) (h0 : 0 < e) (hle : e ≤ l.length) :
    NoEdge (l.take e) := by
  constructor
  · intro c h
    rw [List.head?_take] at h
    rw [if_neg (by omega)] at h
    exact hE.1 c h
  · intro c h
    rw [List.getLast?_eq_getElem?] at h
    have hlen : (l.take e).length = e := by rw [List.length_take]; omega
    rw [hlen] at h
    rw [List.getElem?_take] at h
    rw [if_pos (by omega)] at h
    unfold isDigitAt charAt at hd
    rw [List.get?_eq_getElem?] at hd
    rw [h] at hd
    simp at hd
    exact isJSpace_of_digit hd

theorem noNL_take {l : List Char} {e : Nat} (h : NoNL l) : NoNL (l.take e) :=
  fun c hc => h c (List.take_subset _ _ hc)

theorem mem_truncAtZip {l : List Char} {c : Char} (h : c ∈ truncAtZip l) : c ∈ l := by
  unfold truncAtZip at h
  split at h
  · split at h
    · exact List.take_subset _ _ h
    · exact h
  · exact h

theorem cleanAddressL_eval_single {t : List Char} (h1 : NoNL t) (h2 : NoEdge t)
    (ht0 : t ≠ []) :
    cleanAddressL t = if keepLine t then cleanRest [t] [t] else trimL t := by
  have hl : linesOf t = [t] := linesOf_single h1 h2 ht0
  unfold cleanAddressL
  rw [hl]
  show cleanLines (List.filter keepLine [t]) [t] = _
  by_cases hk : keepLine t = true
  · rw [if_pos hk, List.filter_cons_of_pos hk, List.filter_nil]
    rfl
  · rw [if_neg hk, List.filter_cons_of_neg hk, List.filter_nil]
    show cleanRest [] [t] = trimL t
    unfold cleanRest
    rw [List.find?_nil, List.find?_nil]
    rfl

theorem cleanRest_single_of_zip {t : List Char} (hz : hasZipL t = true) :
    cleanRest [t] [t] = trimL (truncAtZip t) := by
  unfold cleanRest
  by_cases hc : t.contains ',' = true
  · have h1 : List.find? (fun l => hasZipL l && l.contains ',') [t] = some t :=
      List.find?_cons_of_pos _ (by show (hasZipL t && t.contains ',') = true; rw [hz, hc]; rfl)
    rw [h1]
  · have h1 : List.find? (fun l => hasZipL l && l.contains ',') [t] = none := by
      refine List.find?_cons_of_neg _ ?_ |>.trans List.find?_nil
      intro hcon
      rw [hz, Bool.true_and] at hcon
      exact hc hcon
    have h2 : List.find? hasZipL [t] = some t := List.find?_cons_of_pos _ hz
    rw [h1, h2]

theorem cleanRest_single_noZip {t : List Char} (hz : hasZipL t = false) :
    cleanRest [t] [t] = trimL t := by
  unfold cleanRest
  have h1 : List.find? (fun l => hasZipL l && l.contains ',') [t] = none := by
    refine List.find?_cons_of_neg _ ?_ |>.trans List.find?_nil
    intro hcon
    rw [hz, Bool.false_and] at hcon
    exact Bool.false_ne_true hcon
  have h2 : List.find? hasZipL [t] = none := by
    refine List.find?_cons_of_neg _ ?_ |>.trans List.find?_nil
    intro hcon
    rw [hz] at hcon
    exact Bool.false_ne_true hcon
  rw [h1, h2]
  rfl

/-- The heart of the idempotence analysis: on a single trimmed line
(which is what `cleanAddress` itself produces) `cleanAddress` is a
projection onto a fixed point. -/
theorem cleanAddressL_single_fix {t : List Char} (h1 : NoNL t) (h2 : NoEdge t) :
    cleanAddressL (cleanAddressL t) = cleanAddressL t := by
  by_cases ht0 : t = []
  · subst ht0
    have hnil : cleanAddressL ([] : List Char) = [] := by decide
    rw [hnil]
    exact hnil
  have heval := cleanAddressL_eval_single h1 h2 ht0
  by_cases hk : keepLine t = true
  · rw [if_pos hk] at heval
    by_cases hz : hasZipL t = true
    · cases hzs : zipStart t with
      | none => exact absurd (by unfold hasZipL at hz; rw [hzs] at hz; exact hz) (by simp)
      | some p =>
        cases hze : zipEndAt t p with
        | none =>
          exfalso
          unfold zipStart at hzs
          have := (firstZipFrom_spec hzs).2.2.1
          rw [hze] at this
          simp at this
        | some e =>
          have hf := zipEndAt_facts hze
          have htr : truncAtZip t = t.take e := by
            unfold truncAtZip
            rw [hzs]
            simp only [hze]
          have hEu : NoEdge (t.take e) :=
            noEdge_take_digit h2 hf.2.2.2.2.1 (by omega) hf.2.2.1
          have hTu : trimL (t.take e) = t.take e := trimL_eq_self hEu
          have hT : cleanAddressL t = t.take e := by
            rw [heval, cleanRest_single_of_zip hz, htr, hTu]
          rw [hT]
          have hNu : NoNL (t.take e) := noNL_take h1
          have hu0 : (t.take e) ≠ [] := by
            intro hnil
            have hlen : (t.take e).length = e := by
              rw [List.length_take]
              have := hf.2.2.1
              omega
            rw [hnil] at hlen
            simp at hlen
            have := hf.1
            omega
          have hku : keepLine (t.take e) = true := keepLine_take hk
          have hevu := cleanAddressL_eval_single hNu hEu hu0
          rw [if_pos hku] at hevu
          obtain ⟨htz, hzu⟩ := truncAtZip_take_self hzs hze
          rw [hevu, cleanRest_single_of_zip hzu, htz, hTu]
    · have hT : cleanAddressL t = t := by
        rw [heval, cleanRest_single_noZip (by simpa using hz)]
        exact trimL_eq_self h2
      rw [hT]
      exact hT
  · rw [if_neg hk] at heval
    have hT : cleanAddressL t = t := by
      rw [heval]
      exact trimL_eq_self h2
    rw [hT]
    exact hT

theorem noEdge_cleanRest (keep lines : List (List Char)) :
    NoEdge (cleanRest keep lines) := by
  unfold cleanRest
  cases keep.find? (fun l => hasZipL l && l.contains ',') with
  | some l => exact noEdge_trimL _
  | none =>
    cases keep.find? hasZipL with
    | some l => exact noEdge_trimL _
    | none => exact noEdge_trimL _

theorem noEdge_cleanLines (keep lines : List (List Char)) :
    NoEdge (cleanLines keep lines) := by
  unfold cleanLines
  split
  · split
    · exact noEdge_trimL _
    · exact noEdge_cleanRest _ _
  · exact noEdge_cleanRest _ _

theorem mem_cleanRest {keep lines : List (List Char)} {c : Char}
    (h : c ∈ cleanRest keep lines) :
    (∃ l, l ∈ keep ∧ c ∈ l) ∨ (∃ l, l ∈ lines ∧ c ∈ l) := by
  unfold cleanRest at h
  cases h1 : keep.find? (fun l => hasZipL l && l.contains ',') with
  | some l =>
    rw [h1] at h
    exact Or.inl ⟨l, List.mem_of_find?_eq_some h1, mem_truncAtZip (mem_trimL h)⟩
  | none =>
    rw [h1] at h
    cases h2 : keep.find? hasZipL with
    | some l =>
      rw [h2] at h
      exact Or.inl ⟨l, List.mem_of_find?_eq_some h2, mem_truncAtZip (mem_trimL h)⟩
    | none =>
      rw [h2] at h
      have h3 := mem_trimL h
      cases keep with
      | cons k ks => exact Or.inl ⟨k, List.mem_cons_self _ _, by simpa using h3⟩
      | nil =>
        cases lines with
        | cons q qs => exact Or.inr ⟨q, List.mem_cons_self _ _, by simpa using h3⟩
        | nil => simp at h3

theorem mem_cleanLines {keep lines : List (List Char)} {c : Char}
    (h : c ∈ cleanLines keep lines) :
    (∃ l, l ∈ keep ∧ c ∈ l) ∨ (∃ l, l ∈ lines ∧ c ∈ l) ∨ c = ',' ∨ c = ' ' := by
  unfold cleanLines at h
  split at h
  · split at h
    · have h3 := mem_trimL h
      rcases List.mem_append.mp h3 with h4 | h4
      · rcases List.mem_append.mp h4 with h5 | h5
        · exact Or.inl ⟨_, List.mem_cons_self _ _, h5⟩
        · have hcs : c = ',' ∨ c = ' ' := by simpa using h5
          exact Or.inr (Or.inr hcs)
      · exact Or.inl ⟨_, List.mem_cons_of_mem _ (List.mem_cons_self _ _), h4⟩
    · rcases mem_cleanRest h with h2 | h2
      · exact Or.inl h2
      · exact Or.inr (Or.inl h2)
  · rcases mem_cleanRest h with h2 | h2
    · exact Or.inl h2
    · exact Or.inr (Or.inl h2)

theorem cleanAddressL_props (raw : List Char) :
    NoNL (cleanAddressL raw) ∧ NoEdge (cleanAddressL raw) := by
  constructor
  · intro c hc
    unfold cleanAddressL at hc
    rcases mem_cleanLines hc with ⟨l, hl, hcl⟩ | ⟨l, hl, hcl⟩ | rfl | rfl
    · have hl2 : l ∈ linesOf raw := (List.mem_filter.mp hl).1
      exact (linesOf_mem_noNL hl2).1 c hcl
    · exact (linesOf_mem_noNL hl).1 c hcl
    · exact ⟨by decide, by decide⟩
    · exact ⟨by decide, by decide⟩
  · unfold cleanAddressL
    exact noEdge_cleanLines _ _

/-- From the second application on, `cleanAddress` is idempotent. -/
theorem cleanAddressL_triple (raw : List Char) :
    cleanAddressL (cleanAddressL (cleanAddressL raw)) = cleanAddressL (cleanAddressL raw) := by
  have h := cleanAddressL_props raw
  exact cleanAddressL_single_fix h.1 h.2

/-- String-level version of `cleanAddressL_triple`. -/
theorem cleanAddress_triple (s : String) :
    cleanAddress (cleanAddress (cleanAddress s)) = cleanAddress (cleanAddress s) := by
  unfold cleanAddress
  exact congrArg String.mk (cleanAddressL_triple s.data)

/-- Anything in the image of the twice-applied normalizer is a fixed
point of `cleanAddress`. -/
theorem cleanAddress_fix_of_double_image {x : String}
    (h : ∃ w, x = cleanAddress (cleanAddress w)) : cleanAddress x = x := by
  obtain ⟨w, rfl⟩ := h
  exact cleanAddress_triple w

theorem collectGo_eq (env : DriverScanEnv) (seen0 : List Nat) :
    ∀ (fuel i : Nat),
      collectGo env fuel i (cumStateP env seen0 i).1 (cumStateP env seen0 i).2
          (outLenP env seen0 i) (stagP env seen0 i)
        = match (List.range' i fuel).find? (stopCond env seen0) with
          | some j => ((cumStateP env seen0 (j + 1)).2, j + 1)
          | none => ((cumStateP env seen0 (i + fuel)).2, i + fuel) := by
  intro fuel
  induction fuel with
  | zero => intro i; simp [collectGo, List.range']
  | succ n ih =>
    intro i
    show collectGo env (n + 1) i _ _ _ _ = _
    unfold collectGo
    have hso : scanStep ((cumStateP env seen0 i).1, (cumStateP env seen0 i).2) (env.rowsAt i)
        = cumStateP env seen0 (i + 1) := by
      rw [Prod.mk.eta]
      rfl
    simp only [hso]
    have hstag : (if (cumStateP env seen0 (i + 1)).2.length = outLenP env seen0 i
        then stagP env seen0 i + 1 else 0) = stagP env seen0 (i + 1) := rfl
    simp only [hstag]
    rw [List.range'_succ]
    by_cases hc : stopCond env seen0 i = true
    · rw [List.find?_cons_of_pos _ hc]
      unfold stopCond at hc
      rw [if_pos hc]
    · rw [List.find?_cons_of_neg _ (by simpa using hc)]
      unfold stopCond at hc
      rw [if_neg (by simpa using hc)]
      simp only [show ((cumStateP env seen0 (i + 1)).2.length) = outLenP env seen0 (i + 1) from rfl]
      rw [ih (i + 1)]
      have harith : i + 1 + n = i + (n + 1) := by omega
      rw [harith]

theorem collectAllDrivers_eq (env : DriverScanEnv) (tracked : List Nat) :
    collectAllDrivers env tracked
      = (let seen0 := tracked.filter (fun r => !(env.initialRows.contains r))
         match (List.range' 0 MAX_SCROLL_LOOPS).find? (stopCond env seen0) with
         | some j => ((cumStateP env seen0 (j + 1)).2, j + 1)
         | none => ((cumStateP env seen0 MAX_SCROLL_LOOPS).2, MAX_SCROLL_LOOPS)) := by
  have h := collectGo_eq env (tracked.filter (fun r => !(env.initialRows.contains r)))
      MAX_SCROLL_LOOPS 0
  exact h

theorem scanStep_all_new :
    ∀ (rs : List (Nat × RowEnv)) (st : List Nat × List DriverRecord),
      (rs.map Prod.fst).Nodup → (∀ r ∈ rs, r.1 ∉ st.1) →
      scanStep st rs = (st.1 ++ rs.map Prod.fst, st.2 ++ rs.map (fun r => parseRow r.2)) := by
  intro rs
  induction rs with
  | nil => intro st _ _; simp [scanStep]
  | cons r rest ih =>
    intro st hnd hdisj
    have hr1 : r.1 ∉ st.1 := hdisj r (List.mem_cons_self _ _)
    show scanStep st (r :: rest) = _
    unfold scanStep
    rw [List.foldl_cons]
    rw [if_neg hr1]
    have hnd2 : (rest.map Prod.fst).Nodup := by
      simp only [List.map_cons, List.nodup_cons] at hnd
      exact hnd.2
    have hhd : r.1 ∉ rest.map Prod.fst := by
      simp only [List.map_cons, List.nodup_cons] at hnd
      exact hnd.1
    have hdisj2 : ∀ x ∈ rest, x.1 ∉ st.1 ++ [r.1] := by
      intro x hx
      rw [List.mem_append]
      rintro (h | h)
      · exact hdisj x (List.mem_cons_of_mem _ hx) h
      · simp at h
        exact hhd (h ▸ List.mem_map_of_mem Prod.fst hx)
    have := ih (st.1 ++ [r.1], st.2 ++ [parseRow r.2]) hnd2 hdisj2
    unfold scanStep at this
    rw [this]
    simp

theorem scanStep_none_new :
    ∀ (rs : List (Nat × RowEnv)) (st : List Nat × List DriverRecord),
      (∀ r ∈ rs, r.1 ∈ st.1) → scanStep st rs = st := by
  intro rs
  induction rs with
  | nil => intro st _; rfl
  | cons r rest ih =>
    intro st hmem
    show scanStep st (r :: rest) = st
    unfold scanStep
    rw [List.foldl_cons, if_pos (hmem r (List.mem_cons_self _ _))]
    exact ih st (fun x hx => hmem x (List.mem_cons_of_mem _ hx))

theorem static_cum {env : DriverScanEnv} {seen0 : List Nat} {rs : List (Nat × RowEnv)}
    (hrows : ∀ i, env.rowsAt i = rs) (hnd : (rs.map Prod.fst).Nodup)
    (hdisj : ∀ r ∈ rs, r.1 ∉ seen0) :
    ∀ i, 1 ≤ i →
      cumStateP env seen0 i = (seen0 ++ rs.map Prod.fst, rs.map (fun r => parseRow r.2)) := by
  intro i
  induction i with
  | zero => intro h; omega
  | succ i ih =>
    intro _
    show scanStep (cumStateP env seen0 i) (env.rowsAt i) = _
    rw [hrows i]
    by_cases hi : 1 ≤ i
    · rw [ih hi]
      apply scanStep_none_new
      intro r hr
      simp only [List.mem_append]
      right
      exact List.mem_map_of_mem Prod.fst hr
    · have hi0 : i = 0 := by omega
      subst hi0
      show scanStep (seen0, []) rs = _
      rw [scanStep_all_new rs (seen0, []) hnd (by intro r hr; exact hdisj r hr)]
      simp

theorem static_outLen {env : DriverScanEnv} {seen0 : List Nat} {rs : List (Nat × RowEnv)}
    (hrows : ∀ i, env.rowsAt i = rs) (hnd : (rs.map Prod.fst).Nodup)
    (hdisj : ∀ r ∈ rs, r.1 ∉ seen0) :
    ∀ i, 1 ≤ i → outLenP env seen0 i = rs.length := by
  intro i hi
  unfold outLenP
  rw [static_cum hrows hnd hdisj i hi]
  simp

theorem static_stag {env : DriverScanEnv} {seen0 : List Nat} {rs : List (Nat × RowEnv)}
    (hrows : ∀ i, env.rowsAt i = rs) (hnd : (rs.map Prod.fst).Nodup)
    (hdisj : ∀ r ∈ rs, r.1 ∉ seen0) :
    ∀ i, 1 ≤ i →
      stagP env seen0 i = (i - 1) + (if rs.length = 0 then 1 else 0) := by
  intro i
  induction i with
  | zero => intro h; omega
  | succ i ih =>
    intro _
    show (if outLenP env seen0 (i + 1) = outLenP env seen0 i then stagP env seen0 i + 1 else 0)
        = _
    by_cases hi : 1 ≤ i
    · rw [static_outLen hrows hnd hdisj (i + 1) (by omega),
        static_outLen hrows hnd hdisj i hi, if_pos rfl, ih hi]
      omega
    · have hi0 : i = 0 := by omega
      subst hi0
      rw [static_outLen hrows hnd hdisj 1 (by omega)]
      show (if rs.length = outLenP env seen0 0 then stagP env seen0 0 + 1 else 0) = _
      have h0 : outLenP env seen0 0 = 0 := rfl
      have hs0 : stagP env seen0 0 = 0 := rfl
      rw [h0, hs0]
      by_cases hN : rs.length = 0
      · rw [if_pos hN]
      · rw [if_neg hN]

/-- C6: the driver-scan loop of `collectAllDrivers` exits early exactly
when the container reports being at its scroll end and the accumulated
record count has been unchanged for `STAGNANT_THRESHOLD` consecutive
iterations (general equation, first conjunct); over a container that
presents a fixed set of rows and is at its end from the first check, the
loop terminates within `STAGNANT_THRESHOLD + 1` iterations - not at the
`MAX_SCROLL_LOOPS` bound - and returns one parsed record per presented
row (second conjunct). -/
theorem claim_C6 :
    (∀ (env : DriverScanEnv) (tracked : List Nat),
        collectAllDrivers env tracked
          = (let seen0 := tracked.filter (fun r => !(env.initialRows.contains r))
             match (List.range' 0 MAX_SCROLL_LOOPS).find? (stopCond env seen0) with
             | some j => ((cumStateP env seen0 (j + 1)).2, j + 1)
             | none => ((cumStateP env seen0 MAX_SCROLL_LOOPS).2, MAX_SCROLL_LOOPS))) ∧
    (∀ (rs : List (Nat × RowEnv)) (env : DriverScanEnv) (tracked : List Nat),
        (∀ i, env.rowsAt i = rs) → (∀ i, env.atBottomAt i = true) →
        (rs.map Prod.fst).Nodup →
        (∀ r ∈ rs, r.1 ∉ tracked.filter (fun x => !(env.initialRows.contains x))) →
        (collectAllDrivers env tracked).1 = rs.map (fun r => parseRow r.2) ∧
        (collectAllDrivers env tracked).2 ≤ STAGNANT_THRESHOLD + 1 ∧
        (collectAllDrivers env tracked).2 < MAX_SCROLL_LOOPS) := by
  constructor
  · exact collectAllDrivers_eq
  · intro rs env tracked hrows hbot hnd hdisj
    have heq := collectAllDrivers_eq env tracked
    set seen0 := tracked.filter (fun r => !(env.initialRows.contains r)) with hseen0
    by_cases hN : rs.length = 0
    · have hcond : stopCond env seen0 = fun j => decide (7 ≤ j + 1) := by
        funext j
        unfold stopCond
        rw [hbot j, Bool.true_and,
          static_stag hrows hnd hdisj (j + 1) (by omega), if_pos hN]
        simp [STAGNANT_THRESHOLD]
      have hfind : (List.range' 0 MAX_SCROLL_LOOPS).find? (fun j => decide (7 ≤ j + 1))
          = some 6 := by decide
      simp only [hcond] at heq
      simp only [hfind] at heq
      rw [heq]
      refine ⟨?_, by simp [STAGNANT_THRESHOLD], by simp [MAX_SCROLL_LOOPS]⟩
      rw [static_cum hrows hnd hdisj 7 (by omega)]
    · have hcond : stopCond env seen0 = fun j => decide (7 ≤ j) := by
        funext j
        unfold stopCond
        rw [hbot j, Bool.true_and,
          static_stag hrows hnd hdisj (j + 1) (by omega), if_neg hN]
        simp [STAGNANT_THRESHOLD]
      have hfind : (List.range' 0 MAX_SCROLL_LOOPS).find? (fun j => decide (7 ≤ j))
          = some 7 := by decide
      simp only [hcond] at heq
      simp only [hfind] at heq
      rw [heq]
      refine ⟨?_, by simp [STAGNANT_THRESHOLD], by simp [MAX_SCROLL_LOOPS]⟩
      rw [static_cum hrows hnd hdisj 8 (by omega)]

/-- Witness for C6: a two-row container, at its end throughout, is scanned
in at most 8 iterations with both rows parsed. -/
theorem claim_C6_witness :
    (collectAllDrivers
        { rowsAt := fun _ =>
            [(0, { innerText := "Alice Smith\n(555) 123-4567\n12 / 30 stops",
                   telHref := none, projectedRTSText := none,
                   avgPerHourText := none, lastHourPaceText := none }),
             (1, { innerText := "Bob Jones\n555-000-1111\n3 / 9 stops",
                   telHref := none, projectedRTSText := none,
                   avgPerHourText := none, lastHourPaceText := none })],
          atBottomAt := fun _ => true, initialRows := [] } []).1
      = [parseRow { innerText := "Alice Smith\n(555) 123-4567\n12 / 30 stops",
                    telHref := none, projectedRTSText := none,
                    avgPerHourText := none, lastHourPaceText := none },
         parseRow { innerText := "Bob Jones\n555-000-1111\n3 / 9 stops",
                    telHref := none, projectedRTSText := none,
                    avgPerHourText := none, lastHourPaceText := none }] ∧
    (collectAllDrivers
        { rowsAt := fun _ =>
            [(0, { innerText := "Alice Smith\n(555) 123-4567\n12 / 30 stops",
                   telHref := none, projectedRTSText := none,
                   avgPerHourText := none, lastHourPaceText := none }),
             (1, { innerText := "Bob Jones\n555-000-1111\n3 / 9 stops",
                   telHref := none, projectedRTSText := none,
                   avgPerHourText := none, lastHourPaceText := none })],
          atBottomAt := fun _ => true, initialRows := [] } []).2
      ≤ STAGNANT_THRESHOLD + 1 := by
  have h := claim_C6.2
    [(0, { innerText := "Alice Smith\n(555) 123-4567\n12 / 30 stops",
           telHref := none, projectedRTSText := none,
           avgPerHourText := none, lastHourPaceText := none }),
     (1, { innerText := "Bob Jones\n555-000-1111\n3 / 9 stops",
           telHref := none, projectedRTSText := none,
           avgPerHourText := none, lastHourPaceText := none })]
    { rowsAt := fun _ => _, atBottomAt := fun _ => true, initialRows := [] } []
    (fun _ => rfl) (fun _ => rfl) (by decide) (by decide)
  exact ⟨h.1, h.2.1⟩

theorem keys_parsedEntries (phs : List (Option Int × Bool)) :
    (parsedEntries phs).map Prod.fst = phs.filterMap Prod.fst := by
  induction phs with
  | nil => rfl
  | cons p rest ih =>
    obtain ⟨op, d⟩ := p
    unfold parsedEntries at ih ⊢
    cases op with
    | none => simpa [List.filterMap_cons] using ih
    | some n => simpa [List.filterMap_cons] using ih

theorem lookup_mem {m : List (Int × SH)} {k : Int} {v : SH}
    (h : m.lookup k = some v) : (k, v) ∈ m := by
  induction m with
  | nil => simp [List.lookup] at h
  | cons kv rest ih =>
    obtain ⟨k1, v1⟩ := kv
    unfold List.lookup at h
    by_cases hk : k = k1
    · rw [show (k == k1) = true by simp [hk]] at h
      simp only [Option.some.injEq] at h
      rw [hk, h]
      exact List.mem_cons_self _ _
    · rw [show (k == k1) = false by simp [hk]] at h
      exact List.mem_cons_of_mem _ (ih h)

theorem lookup_isSome_of_mem {m : List (Int × SH)} {k : Int} {v : SH}
    (h : (k, v) ∈ m) : (m.lookup k).isSome = true := by
  induction m with
  | nil => simp at h
  | cons kv rest ih =>
    obtain ⟨k1, v1⟩ := kv
    unfold List.lookup
    by_cases hk : k = k1
    · rw [show (k == k1) = true by simp [hk]]
      rfl
    · rw [show (k == k1) = false by simp [hk]]
      rcases List.mem_cons.mp h with heq | h2
      · exact absurd (congrArg Prod.fst heq) hk
      · exact ih h2

theorem eq_of_mem_nodup_keys {m : List (Int × SH)} {k : Int} {v w : SH}
    (hnd : (m.map Prod.fst).Nodup) (h1 : (k, v) ∈ m) (h2 : (k, w) ∈ m) : v = w := by
  induction m with
  | nil => simp at h1
  | cons kv rest ih =>
    obtain ⟨k1, v1⟩ := kv
    simp only [List.map_cons, List.nodup_cons] at hnd
    rcases List.mem_cons.mp h1 with heq1 | h1b
    · rcases List.mem_cons.mp h2 with heq2 | h2b
      · rw [show v = v1 from congrArg Prod.snd heq1,
            show w = v1 from congrArg Prod.snd heq2]
      · have hk : k = k1 := congrArg Prod.fst heq1
        exact absurd (hk ▸ List.mem_map_of_mem Prod.fst h2b) hnd.1
    · rcases List.mem_cons.mp h2 with heq2 | h2b
      · have hk : k = k1 := congrArg Prod.fst heq2
        exact absurd (hk ▸ List.mem_map_of_mem Prod.fst h1b) hnd.1
      · exact ih hnd.2 h1b h2b

theorem map_id_of_forall {α : Type} {f : α → α} :
    ∀ {l : List α}, (∀ a ∈ l, f a = a) → l.map f = l := by
  intro l
  induction l with
  | nil => intro _; rfl
  | cons a t ih =>
    intro h
    rw [List.map_cons, h a (List.mem_cons_self a t),
        ih (fun b hb => h b (List.mem_cons_of_mem a hb))]

/-- Setting a key already bound to the same value leaves the map unchanged
when keys are pairwise distinct. -/
theorem seenSet_id {m : List (Int × SH)} {k : Int} {v : SH}
    (hnd : (m.map Prod.fst).Nodup) (h : (k, v) ∈ m) : seenSet m k v = m := by
  unfold seenSet
  rw [if_pos (lookup_isSome_of_mem h)]
  apply map_id_of_forall
  intro kv hkv
  obtain ⟨k1, v1⟩ := kv
  by_cases hk : k1 = k
  · subst hk
    have hv : v = v1 := eq_of_mem_nodup_keys hnd h hkv
    simp [hv]
  · simp [hk]

/-- A pass over headers whose parsable keys are fresh and pairwise distinct
appends exactly the parsed entries. -/
theorem seenUpdate_from_nil : ∀ (phs : List (Option Int × Bool)),
    (phs.filterMap Prod.fst).Nodup →
    ∀ (m : List (Int × SH)),
      (∀ n, n ∈ phs.filterMap Prod.fst → n ∉ m.map Prod.fst) →
      seenUpdate m phs = m ++ parsedEntries phs := by
  intro phs
  induction phs with
  | nil => intro _ m _; simp [seenUpdate, parsedEntries]
  | cons p rest ih =>
    obtain ⟨op, d⟩ := p
    intro hnd m hdisj
    cases op with
    | none =>
      show seenUpdate m rest = m ++ parsedEntries ((none, d) :: rest)
      have hnd2 : (rest.filterMap Prod.fst).Nodup := by
        simpa [List.filterMap_cons] using hnd
      rw [ih hnd2 m (fun x hx => hdisj x (by simpa [List.filterMap_cons] using hx))]
      simp [parsedEntries, List.filterMap_cons]
    | some n =>
      show seenUpdate (seenSet m n (SH.mk n d)) rest = m ++ parsedEntries ((some n, d) :: rest)
      have hnd2 := hnd
      simp only [List.filterMap_cons, List.nodup_cons] at hnd2
      have hset : seenSet m n (SH.mk n d) = m ++ [(n, SH.mk n d)] := by
        unfold seenSet
        cases hl : m.lookup n with
        | none => rfl
        | some v =>
          exact absurd (List.mem_map_of_mem Prod.fst (lookup_mem hl))
            (hdisj n (by simp [List.filterMap_cons]))
      have hdisj2 : ∀ x, x ∈ rest.filterMap Prod.fst →
          x ∉ (m ++ [(n, SH.mk n d)]).map Prod.fst := by
        intro x hx
        simp only [List.map_append, List.mem_append]
        rintro (hmm | hmm)
        · exact hdisj x (by simpa [List.filterMap_cons] using Or.inr hx) hmm
        · simp at hmm
          rw [hmm] at hx
          exact hnd2.1 hx
      rw [hset, ih hnd2.2 (m ++ [(n, SH.mk n d)]) hdisj2]
      simp [parsedEntries, List.filterMap_cons]

/-- Re-running a pass whose entries are all already present with the same
values leaves the map unchanged. -/
theorem seenUpdate_id {S : List (Int × SH)} : ∀ (phs : List (Option Int × Bool)),
    (S.map Prod.fst).Nodup →
    (∀ p ∈ phs, ∀ n, p.1 = some n → (n, SH.mk n p.2) ∈ S) →
    seenUpdate S phs = S := by
  intro phs
  induction phs with
  | nil => intro _ _; rfl
  | cons p rest ih =>
    obtain ⟨op, d⟩ := p
    intro hnd hmem
    cases op with
    | none =>
      show seenUpdate S rest = S
      exact ih hnd (fun q hq n hn => hmem q (List.mem_cons_of_mem _ hq) n hn)
    | some n =>
      show seenUpdate (seenSet S n (SH.mk n d)) rest = S
      rw [seenSet_id hnd (hmem (some n, d) (List.mem_cons_self _ _) n rfl)]
      exact ih hnd (fun q hq m hm => hmem q (List.mem_cons_of_mem _ hq) m hm)

theorem mem_insertSorted {x a : SH} :
    ∀ {l : List SH}, x ∈ insertSorted a l ↔ x = a ∨ x ∈ l := by
  intro l
  induction l with
  | nil => simp [insertSorted]
  | cons b t ih =>
    unfold insertSorted
    by_cases hb : decide (b.stopNum ≤ a.stopNum) = true
    · rw [if_pos hb]
      simp only [List.mem_cons, ih]
      tauto
    · rw [if_neg hb]
      simp only [List.mem_cons]

theorem pairwise_insertSorted {a : SH} :
    ∀ {l : List SH}, l.Pairwise (fun x y => x.stopNum ≤ y.stopNum) →
    (insertSorted a l).Pairwise (fun x y => x.stopNum ≤ y.stopNum) := by
  intro l
  induction l with
  | nil => intro _; simp [insertSorted]
  | cons b t ih =>
    intro hp
    rw [List.pairwise_cons] at hp
    unfold insertSorted
    by_cases hb : decide (b.stopNum ≤ a.stopNum) = true
    · rw [if_pos hb]
      rw [List.pairwise_cons]
      refine ⟨?_, ih hp.2⟩
      intro x hx
      rcases mem_insertSorted.mp hx with rfl | hx2
      · exact of_decide_eq_true hb
      · exact hp.1 x hx2
    · rw [if_neg hb]
      have ha : a.stopNum ≤ b.stopNum :=
        le_of_lt (lt_of_not_le (fun hc => hb (decide_eq_true hc)))
      rw [List.pairwise_cons]
      refine ⟨?_, List.pairwise_cons.mpr hp⟩
      intro x hx
      rcases List.mem_cons.mp hx with rfl | hx2
      · exact ha
      · exact le_trans ha (hp.1 x hx2)

theorem pairwise_stableSortByNum (l : List SH) :
    (stableSortByNum l).Pairwise (fun x y => x.stopNum ≤ y.stopNum) := by
  have key : ∀ (l acc : List SH),
      acc.Pairwise (fun x y => x.stopNum ≤ y.stopNum) →
      (l.foldl (fun acc a => insertSorted a acc) acc).Pairwise
        (fun x y => x.stopNum ≤ y.stopNum) := by
    intro l
    induction l with
    | nil => intro acc h; exact h
    | cons a t ih =>
      intro acc h
      rw [List.foldl_cons]
      exact ih (insertSorted a acc) (pairwise_insertSorted h)
  exact key l [] List.Pairwise.nil

/-- Once the header pass reproduces the seen map and the remaining count
stays below the wanted ordinal, each further iteration changes nothing and
every exit path yields the same result. -/
theorem collectStopsGo_const (env : StopScanEnv) (want : Nat)
    (S : List (Int × SH))
    (hid : ∀ i, seenUpdate S ((env.headersAt i).map parseStopHeaderL) = S)
    (hlt : (remainingOf S).length < want) :
    ∀ fuel i lastSeen stagnant,
      collectStopsGo env want fuel i S lastSeen stagnant
        = ⟨remainingOf S, (remainingOf S).get? (want - 1)⟩ := by
  intro fuel
  induction fuel with
  | zero => intro i lastSeen stagnant; rfl
  | succ fuel ih =>
    intro i lastSeen stagnant
    simp only [collectStopsGo, hid i]
    rw [if_neg (Nat.not_le.mpr hlt)]
    split
    · split
      · rfl
      · exact ih (i + 1) S.length _
    · split
      · rfl
      · exact ih (i + 1) S.length _

/-- On a static environment whose first pass builds `S` and whose every pass
reproduces `S`, the scan returns the remaining list of `S` and its
`want - 1` entry. -/
theorem collectStopsGo_succ (env : StopScanEnv) (want fuel i : Nat)
    (seen : List (Int × SH)) (lastSeen stagnant : Nat) :
    collectStopsGo env want (fuel + 1) i seen lastSeen stagnant =
      (let seen2 := seenUpdate seen ((env.headersAt i).map parseStopHeaderL)
       let rem := remainingOf seen2
       if want ≤ rem.length then ⟨rem, rem.get? (want - 1)⟩
       else
         let stagnant2 := if seen2.length = lastSeen then stagnant + 1 else 0
         if env.atBottomAt i && decide (STAGNANT_THRESHOLD ≤ stagnant2) then
           ⟨rem, rem.get? (want - 1)⟩
         else collectStopsGo env want fuel (i + 1) seen2 seen2.length stagnant2) := rfl

theorem collectRemainingStopsNth_static (env : StopScanEnv) (n : Int)
    (S : List (Int × SH))
    (h0 : seenUpdate [] ((env.headersAt 0).map parseStopHeaderL) = S)
    (hid : ∀ i, seenUpdate S ((env.headersAt i).map parseStopHeaderL) = S) :
    collectRemainingStopsNth env n
      = ⟨remainingOf S, (remainingOf S).get? (jsWant n - 1)⟩ := by
  show collectStopsGo env (jsWant n) (159 + 1) 0 [] 0 0 = _
  rw [collectStopsGo_succ]
  simp only [h0]
  by_cases hw : jsWant n ≤ (remainingOf S).length
  · rw [if_pos hw]
  · rw [if_neg hw]
    have hcond : (env.atBottomAt 0 &&
        decide (STAGNANT_THRESHOLD ≤ if S.length = 0 then 0 + 1 else 0)) = false := by
      by_cases h : S.length = 0
      · simp [h, STAGNANT_THRESHOLD]
      · simp [h, STAGNANT_THRESHOLD]
    simp only [hcond, Bool.false_eq_true, if_false]
    exact collectStopsGo_const env (jsWant n) S hid (Nat.not_le.mp hw) 159 (0 + 1) S.length _

theorem jsWant_of_pos (n : Int) (h : 1 ≤ n) : jsWant n = n.toNat := by
  unfold jsWant
  rw [if_neg (by omega)]
  congr 1
  omega

theorem lookA_mem {α β : Type} [BEq α] [LawfulBEq α] [DecidableEq α] {m : List (α × β)} {k : α} {v : β}
    (h : m.lookup k = some v) : (k, v) ∈ m := by
  induction m with
  | nil => simp [List.lookup] at h
  | cons kv rest ih =>
    obtain ⟨k1, v1⟩ := kv
    unfold List.lookup at h
    by_cases hk : k = k1
    · rw [show (k == k1) = true by simp [hk]] at h
      simp only [Option.some.injEq] at h
      rw [hk, h]
      exact List.mem_cons_self _ _
    · rw [show (k == k1) = false by simp [hk]] at h
      exact List.mem_cons_of_mem _ (ih h)

theorem lookA_isSome_of_mem {α β : Type} [BEq α] [LawfulBEq α] [DecidableEq α] {m : List (α × β)}
    {k : α} {v : β} (h : (k, v) ∈ m) : (m.lookup k).isSome = true := by
  induction m with
  | nil => simp at h
  | cons kv rest ih =>
    obtain ⟨k1, v1⟩ := kv
    unfold List.lookup
    by_cases hk : k = k1
    · rw [show (k == k1) = true by simp [hk]]
      rfl
    · rw [show (k == k1) = false by simp [hk]]
      rcases List.mem_cons.mp h with heq | h2
      · exact absurd (congrArg Prod.fst heq) hk
      · exact ih h2

theorem lookA_none_not_mem {α β : Type} [BEq α] [LawfulBEq α] [DecidableEq α] {m : List (α × β)} {k : α}
    (h : m.lookup k = none) : k ∉ m.map Prod.fst := by
  intro hmem
  rcases List.mem_map.mp hmem with ⟨⟨k1, v1⟩, hm, hk⟩
  have hk2 : k1 = k := hk
  subst hk2
  have := lookA_isSome_of_mem hm
  rw [h] at this
  exact Bool.false_ne_true this

theorem lookup_append_of_none {α β : Type} [BEq α] [LawfulBEq α] [DecidableEq α] {m : List (α × β)}
    {k : α} (l : List (α × β)) (h : m.lookup k = none) :
    (m ++ l).lookup k = l.lookup k := by
  induction m with
  | nil => rfl
  | cons kv rest ih =>
    obtain ⟨k1, v1⟩ := kv
    rw [List.cons_append]
    unfold List.lookup at h
    by_cases hk : k = k1
    · rw [show (k == k1) = true by simp [hk]] at h
      exact absurd h (by simp)
    · rw [show (k == k1) = false by simp [hk]] at h
      show (match k == k1 with
        | true => some v1
        | false => List.lookup k (rest ++ l)) = List.lookup k l
      rw [show (k == k1) = false by simp [hk]]
      exact ih h

theorem lookup_setAssoc_self {α β : Type} [BEq α] [LawfulBEq α] [DecidableEq α] (m : List (α × β))
    (k : α) (v : β) : (setAssoc m k v).lookup k = some v := by
  unfold setAssoc
  by_cases hs : (m.lookup k).isSome = true
  · rw [if_pos hs]
    induction m with
    | nil => simp [List.lookup] at hs
    | cons kv rest ih =>
      obtain ⟨k1, v1⟩ := kv
      by_cases hk : k1 = k
      · simp only [List.map_cons, if_pos hk]
        unfold List.lookup
        rw [show (k == k) = true by simp]
      · simp only [List.map_cons, if_neg hk]
        unfold List.lookup at hs ⊢
        rw [show (k == k1) = false by simp; exact fun hc => hk hc.symm] at hs ⊢
        exact ih hs
  · rw [if_neg hs]
    rw [lookup_append_of_none _ (by cases hl : m.lookup k with
        | none => rfl
        | some w => rw [hl] at hs; exact absurd rfl hs)]
    unfold List.lookup
    rw [show (k == k) = true by simp]

theorem map_fst_setAssoc_isSome {α β : Type} [BEq α] [LawfulBEq α] [DecidableEq α] {m : List (α × β)}
    {k : α} (v : β) (hs : (m.lookup k).isSome = true) :
    (setAssoc m k v).map Prod.fst = m.map Prod.fst := by
  unfold setAssoc
  rw [if_pos hs]
  rw [List.map_map]
  apply List.map_congr_left
  intro kv _
  by_cases hk : kv.1 = k
  · simp [hk]
  · simp [hk]

theorem nodup_keys_setAssoc {α β : Type} [BEq α] [LawfulBEq α] [DecidableEq α] {m : List (α × β)}
    {k : α} (v : β) (hnd : (m.map Prod.fst).Nodup) :
    ((setAssoc m k v).map Prod.fst).Nodup := by
  by_cases hs : (m.lookup k).isSome = true
  · rw [map_fst_setAssoc_isSome v hs]
    exact hnd
  · unfold setAssoc
    rw [if_neg hs]
    have hnone : m.lookup k = none := by
      cases hl : m.lookup k with
      | none => rfl
      | some w => rw [hl] at hs; exact absurd rfl hs
    simp only [List.map_append, List.map_cons, List.map_nil]
    rw [List.nodup_append]
    exact ⟨hnd, List.nodup_singleton k,
      by simp only [List.disjoint_singleton]; exact lookA_none_not_mem hnone⟩

theorem lookup_eraseAssoc_self {α β : Type} [BEq α] [LawfulBEq α] [DecidableEq α] (m : List (α × β))
    (k : α) : (eraseAssoc m k).lookup k = none := by
  unfold eraseAssoc
  induction m with
  | nil => rfl
  | cons kv rest ih =>
    obtain ⟨k1, v1⟩ := kv
    by_cases hk : k1 = k
    · rw [List.filter_cons_of_neg (by simp [hk])]
      exact ih
    · rw [List.filter_cons_of_pos (by simp [hk])]
      unfold List.lookup
      rw [show (k == k1) = false by simp; exact fun hc => hk hc.symm]
      exact ih

theorem mem_eraseAssoc {α β : Type} [BEq α] [LawfulBEq α] [DecidableEq α] {m : List (α × β)}
    {k k1 : α} {v : β} :
    (k1, v) ∈ eraseAssoc m k ↔ (k1, v) ∈ m ∧ k1 ≠ k := by
  unfold eraseAssoc
  rw [List.mem_filter]
  simp

theorem length_eraseAssoc_of_some {α β : Type} [BEq α] [LawfulBEq α] [DecidableEq α] {m : List (α × β)}
    {k : α} {v : β} (hnd : (m.map Prod.fst).Nodup) (h : m.lookup k = some v) :
    (eraseAssoc m k).length + 1 = m.length := by
  unfold eraseAssoc
  induction m with
  | nil => simp [List.lookup] at h
  | cons kv rest ih =>
    obtain ⟨k1, v1⟩ := kv
    simp only [List.map_cons, List.nodup_cons] at hnd
    unfold List.lookup at h
    by_cases hk : k = k1
    · rw [List.filter_cons_of_neg (by simp [hk])]
      have : List.filter (fun kv => decide (kv.1 ≠ k)) rest = rest := by
        apply List.filter_eq_self.mpr
        intro a ha
        simp only [decide_eq_true_eq]
        intro hak
        apply hnd.1
        rw [← hk, ← hak]
        exact List.mem_map_of_mem Prod.fst ha
      rw [this]
      simp
    · rw [show (k == k1) = false by simp [hk]] at h
      rw [List.filter_cons_of_pos (by simp [hk]; exact fun hc => hk hc.symm)]
      simp only [List.length_cons]
      rw [← ih hnd.2 h]

theorem eraseAssoc_of_none {α β : Type} [BEq α] [LawfulBEq α] [DecidableEq α] {m : List (α × β)}
    {k : α} (h : m.lookup k = none) : eraseAssoc m k = m := by
  unfold eraseAssoc
  induction m with
  | nil => rfl
  | cons kv rest ih =>
    obtain ⟨k1, v1⟩ := kv
    unfold List.lookup at h
    by_cases hk : k = k1
    · rw [show (k == k1) = true by simp [hk]] at h
      exact absurd h (by simp)
    · rw [show (k == k1) = false by simp [hk]] at h
      rw [List.filter_cons_of_pos (by simp; exact fun hc => hk hc.symm)]
      rw [ih h]

theorem strClean_image {c : JVal} {a : List Char} (h : strClean c = some a) :
    ∃ w, a = cleanAddressL w := by
  unfold strClean at h
  split at h
  · split at h
    · exact ⟨_, (Option.some.inj h).symm⟩
    · simp at h
  · simp at h

theorem findSome_clean_cands {cands : List JVal} {a : List Char}
    (h : cands.findSome? strClean = some a) : ∃ w, a = cleanAddressL w := by
  induction cands with
  | nil => simp at h
  | cons c rest ih =>
    rw [List.findSome?_cons] at h
    cases hc : strClean c with
    | some b =>
      rw [hc] at h
      exact (Option.some.inj h) ▸ strClean_image hc
    | none =>
      rw [hc] at h
      exact ih h

theorem findSome_clean_keys {ks : List (List Char)} {o : JVal} {a : List Char}
    (h : ks.findSome? (fun k => strClean (jget o k)) = some a) :
    ∃ w, a = cleanAddressL w := by
  induction ks with
  | nil => simp at h
  | cons k rest ih =>
    rw [List.findSome?_cons] at h
    cases hc : strClean (jget o k) with
    | some b =>
      rw [hc] at h
      exact (Option.some.inj h) ▸ strClean_image hc
    | none =>
      rw [hc] at h
      exact ih h

theorem joinParts_eq (parts : List JVal) :
    joinParts parts = cleanAddressL (List.intercalate ['\n']
      (((parts.filter jTruthy).map (fun x => trimL (jToString x))).filter
        (fun s => s ≠ []))) := rfl

theorem extract_image {o : JVal} {a : List Char}
    (h : extractAddressFromObj o = some a) : ∃ w, a = cleanAddressL w := by
  unfold extractAddressFromObj at h
  split at h
  · simp only [] at h
    split at h
    · rename_i b heq
      exact (Option.some.inj h) ▸ findSome_clean_cands heq
    · split at h
      · rename_i c heq
        split at heq
        · split at heq
          · exact ⟨_, by rw [← Option.some.inj h, ← Option.some.inj heq, joinParts_eq]⟩
          · simp at heq
        · simp at heq
      · exact findSome_clean_keys h
  · simp at h

theorem mem_idxInsert {idx : List (List Char × List Char)} {o : JVal}
    {e : List Char × List Char} (h : e ∈ idxInsert idx o) :
    e ∈ idx ∨ ∃ w, e.2 = cleanAddressL w := by
  unfold idxInsert at h
  cases hp : pickStopNum o with
  | none => rw [hp] at h; exact Or.inl h
  | some n =>
    rw [hp] at h
    cases hx : extractAddressFromObj o with
    | none => rw [hx] at h; exact Or.inl h
    | some addr =>
      rw [hx] at h
      have h2 : e ∈ if addr ≠ [] ∧ (idx.lookup (intChars n)).isNone = true then
          idx ++ [(intChars n, addr)] else idx := h
      split at h2
      · rcases List.mem_append.mp h2 with hm | hm
        · exact Or.inl hm
        · right
          rcases extract_image hx with ⟨w, hw⟩
          have he : e = (intChars n, addr) := by simpa using hm
          rw [he, hw]
          exact ⟨w, rfl⟩
      · exact Or.inl h2

mutual
theorem walkV_entries (idx : List (List Char × List Char)) (v : JVal)
    (e : List Char × List Char) (h : e ∈ walkV idx v) :
    e ∈ idx ∨ ∃ w, e.2 = cleanAddressL w :=
  match v with
  | jnull => Or.inl h
  | jbool _ => Or.inl h
  | jnum _ => Or.inl h
  | jstr _ => Or.inl h
  | jarr items =>
    match walkI_entries (idxInsert idx (jarr items)) items e h with
    | Or.inl h2 => mem_idxInsert h2
    | Or.inr h2 => Or.inr h2
  | jobj fields =>
    match walkF_entries (idxInsert idx (jobj fields)) fields e h with
    | Or.inl h2 => mem_idxInsert h2
    | Or.inr h2 => Or.inr h2
theorem walkI_entries (idx : List (List Char × List Char)) (items : JItems)
    (e : List Char × List Char) (h : e ∈ walkI idx items) :
    e ∈ idx ∨ ∃ w, e.2 = cleanAddressL w :=
  match items with
  | JItems.inil => Or.inl h
  | JItems.icons v rest =>
    match walkI_entries (walkV idx v) rest e h with
    | Or.inl h2 => walkV_entries idx v e h2
    | Or.inr h2 => Or.inr h2
theorem walkF_entries (idx : List (List Char × List Char)) (fields : JFields)
    (e : List Char × List Char) (h : e ∈ walkF idx fields) :
    e ∈ idx ∨ ∃ w, e.2 = cleanAddressL w :=
  match fields with
  | JFields.fnil => Or.inl h
  | JFields.fcons _ v rest =>
    match walkF_entries (if objLike v then walkV idx v else idx) rest e h with
    | Or.inl h2 =>
      if hov : objLike v then
        walkV_entries idx v e (by rwa [if_pos hov] at h2)
      else Or.inl (by rwa [if_neg hov] at h2)
    | Or.inr h2 => Or.inr h2
end

theorem build_entries {j : JVal} {e : List Char × List Char}
    (h : e ∈ buildStopAddressIndex j) : ∃ w, e.2 = cleanAddressL w := by
  rcases walkV_entries [] j e h with h2 | h2
  · simp at h2
  · exact h2

/-- Whatever `getJsonAddressForStop` answers is the clean of a stored
entry, itself a clean image, under the store invariant. -/
theorem getJson_image {itinId : Option (List Char)} {stopNum : Int}
    {itinJson : Option JVal}
    {ast : List (List Char × List (List Char × List Char))} {s : List Char}
    (wf : ∀ p ∈ ast, ∀ q ∈ p.2, ∃ w, q.2 = cleanAddressL w)
    (h : (getJsonAddressForStop itinId stopNum itinJson ast).1 = some s) :
    ∃ w, s = cleanAddressL (cleanAddressL w) := by
  unfold getJsonAddressForStop at h
  split at h
  · simp at h
  · rename_i id
    split at h
    · simp at h
    · split at h
      · simp at h
      · rename_i j
        split at h
        · simp only [] at h
          split at h
          · rename_i a ha
            split at h
            · rename_i hne
              have hmem : (intChars stopNum, a) ∈ (ast.lookup id).getD (buildStopAddressIndex j) :=
                lookA_mem ha
              have himg : ∃ w, a = cleanAddressL w := by
                cases hl : ast.lookup id with
                | none =>
                  rw [hl] at hmem
                  exact build_entries hmem
                | some idx0 =>
                  rw [hl] at hmem
                  exact wf (id, idx0) (lookA_mem hl) _ hmem
              rcases himg with ⟨w, hw⟩
              refine ⟨w, ?_⟩
              have : s = cleanAddressL a := (Option.some.inj h).symm
              rw [this, hw]
            · simp at h
          · simp at h
        · simp at h

theorem mem_insertSorted_iff {x a : SH} {l : List SH} :
    x ∈ insertSorted a l ↔ x = a ∨ x ∈ l := mem_insertSorted

theorem mem_stableSortByNum {x : SH} (l : List SH) :
    x ∈ stableSortByNum l ↔ x ∈ l := by
  have key : ∀ (l acc : List SH),
      (x ∈ l.foldl (fun acc a => insertSorted a acc) acc ↔ x ∈ acc ∨ x ∈ l) := by
    intro l
    induction l with
    | nil => intro acc; simp
    | cons a t ih =>
      intro acc
      rw [List.foldl_cons, ih (insertSorted a acc)]
      rw [mem_insertSorted]
      simp only [List.mem_cons]
      tauto
  unfold stableSortByNum
  rw [key l []]
  simp

/-- Membership in the remaining list: exactly the non-done discovered
stops, with no condition on anything else about them. -/
theorem mem_remainingOf {x : SH} (m : List (Int × SH)) :
    x ∈ remainingOf m ↔ x ∈ m.map Prod.snd ∧ x.done = false := by
  unfold remainingOf
  rw [mem_stableSortByNum, List.mem_filter]
  simp

theorem extractItinId_ne_nil {url id : List Char}
    (h : extractItinId url = some id) : id ≠ [] := by
  unfold extractItinId at h
  rcases List.exists_of_findSome?_eq_some h with ⟨p, hp, hat⟩
  unfold itinIdAt at hat
  split at hat
  · simp only [] at hat
    split at hat
    · rename_i hne
      rw [← Option.some.inj hat]
      exact hne
    · simp at hat
  · simp at hat

/-- C1: for the stop resolver with ordinal `n ≥ 1` over a statically
presented header set with distinct parsable sequence numbers, the
remaining list is sorted ascending by sequence number and the target is
its `(n-1)`-th entry (1-indexed ordinal), with `none` - a normal value,
not an error - whenever fewer than `n` incomplete stops were discovered;
concretely, over incomplete stops numbered 2, 5, 7 ordinal 2 resolves
sequence number 5 and ordinal 4 resolves to `none`. -/
theorem claim_C1 :
    (∀ (env : StopScanEnv) (hs : List (List Char)) (n : Int),
        (∀ i, env.headersAt i = hs) →
        ((hs.map parseStopHeaderL).filterMap Prod.fst).Nodup →
        1 ≤ n →
        (collectRemainingStopsNth env n).remaining.Pairwise
          (fun x y => x.stopNum ≤ y.stopNum) ∧
        (collectRemainingStopsNth env n).target
          = (collectRemainingStopsNth env n).remaining.get? (n.toNat - 1) ∧
        ((collectRemainingStopsNth env n).remaining.length < n.toNat →
          (collectRemainingStopsNth env n).target = none)) ∧
    (collectRemainingStopsNth env257 2).target = some ⟨5, false⟩ ∧
    (collectRemainingStopsNth env257 4).target = none := by
  refine ⟨?_, by decide, by decide⟩
  intro env hs n hstatic hnd hn
  set phs := hs.map parseStopHeaderL with hphs
  set S := seenUpdate [] phs with hS
  have hSE : S = parsedEntries phs := by
    rw [hS]
    have := seenUpdate_from_nil phs hnd [] (by intro x hx; simp)
    simpa using this
  have hkeys : (S.map Prod.fst).Nodup := by
    rw [hSE, keys_parsedEntries]
    exact hnd
  have hmem : ∀ p ∈ phs, ∀ m, p.1 = some m → (m, SH.mk m p.2) ∈ S := by
    intro p hp m hm
    rw [hSE]
    unfold parsedEntries
    apply List.mem_filterMap.mpr
    exact ⟨p, hp, by rw [hm]; rfl⟩
  have h0 : seenUpdate [] ((env.headersAt 0).map parseStopHeaderL) = S := by
    rw [hstatic 0, hS, hphs]
  have hid : ∀ i, seenUpdate S ((env.headersAt i).map parseStopHeaderL) = S := by
    intro i
    rw [hstatic i, ← hphs]
    exact seenUpdate_id phs hkeys hmem
  have heq := collectRemainingStopsNth_static env n S h0 hid
  rw [jsWant_of_pos n hn] at heq
  refine ⟨?_, ?_, ?_⟩
  · rw [heq]
    exact pairwise_stableSortByNum _
  · rw [heq]
  · rw [heq]
    intro hlt
    apply List.get?_eq_none.mpr
    simp only [] at hlt
    omega

/-- Witness for C1: the concrete static environment with stops 2, 5, 7 at
ordinal 2 satisfies the hypotheses of the general part, whose conclusions
evaluate on it. -/
theorem claim_C1_witness :
    (collectRemainingStopsNth env257 2).remaining.Pairwise
      (fun x y => x.stopNum ≤ y.stopNum) ∧
    (collectRemainingStopsNth env257 2).target
      = (collectRemainingStopsNth env257 2).remaining.get? (Int.toNat 2 - 1) :=
  ⟨(claim_C1.1 env257 ["Stop 2".data, "Stop 5".data, "Stop 7".data] 2
      (fun _ => rfl) (by decide) (by decide)).1,
   (claim_C1.1 env257 ["Stop 2".data, "Stop 5".data, "Stop 7".data] 2
      (fun _ => rfl) (by decide) (by decide)).2.1⟩

/-- C3 (amended): `cleanAddress` is not idempotent in general, but it is
idempotent from the second application on: the third application never
changes the result of the second. -/
theorem claim_C3 (s : String) :
    cleanAddress (cleanAddress (cleanAddress s)) = cleanAddress (cleanAddress s) :=
  cleanAddress_triple s

/-- Counterexample to C3 as stated: joining a street line with a
city/state/zip line makes a single line that contains both a zip and a
comma, which the second application truncates at the zip. -/
theorem claim_C3_counterexample :
    cleanAddress (cleanAddress "123 Main St\nSpringfield, IL 62704 USA")
      ≠ cleanAddress "123 Main St\nSpringfield, IL 62704 USA" := by decide

/-- C9: on the three-line input the boilerplate line is dropped -
case-insensitively - and the street line is joined to the
city/state/zip line with a comma and a space. -/
theorem claim_C9 :
    cleanAddress "Edit in MapTool\n123 Main St\nSpringfield, IL 62704"
      = "123 Main St, Springfield, IL 62704" ∧
    cleanAddress "eDiT iN MapTool\n123 Main St\nSpringfield, IL 62704"
      = "123 Main St, Springfield, IL 62704" := by
  exact ⟨by decide, by decide⟩

/-- C8 (amended): the produced key is the normalized name, a `|`, and the
normalized *formatted* phone string - `norm` lower-cases and trims but
does not strip non-digits. -/
theorem claim_C8 (row : RowEnv) :
    (parseRow row).key = norm (parseRow row).name ++ "|" ++ norm (parseRow row).number := by
  rfl

/-- Counterexample to C8 as stated: the stored key keeps the phone's
punctuation, so it differs from the digits-only form. -/
theorem claim_C8_counterexample :
    (parseRow rowC8).key ≠ specKeyC8 rowC8 ∧
    (parseRow rowC8).key = "alice smith|555) 123-4567" ∧
    specKeyC8 rowC8 = "alice smith|5551234567" := by
  exact ⟨by decide, by decide, by decide⟩

theorem mem_insertSortedHit {x a : JHit} :
    ∀ {l : List JHit}, x ∈ insertSortedHit a l ↔ x = a ∨ x ∈ l := by
  intro l
  induction l with
  | nil => simp [insertSortedHit]
  | cons b t ih =>
    unfold insertSortedHit
    by_cases hb : decide (seqKey b.seq ≤ seqKey a.seq) = true
    · rw [if_pos hb]
      simp only [List.mem_cons, ih]
      tauto
    · rw [if_neg hb]
      simp only [List.mem_cons]

theorem mem_stableSortHits {x : JHit} (l : List JHit) :
    x ∈ stableSortHits l ↔ x ∈ l := by
  have key : ∀ (l acc : List JHit),
      (x ∈ l.foldl (fun acc a => insertSortedHit a acc) acc ↔ x ∈ acc ∨ x ∈ l) := by
    intro l
    induction l with
    | nil => intro acc; simp
    | cons a t ih =>
      intro acc
      rw [List.foldl_cons, ih (insertSortedHit a acc)]
      rw [mem_insertSortedHit]
      simp only [List.mem_cons]
      tauto
  unfold stableSortHits
  rw [key l []]
  simp

/-- C7 (amended): the two remaining-stop selectors disagree.  The JSON
selector (`getNthRemainingStopFromJSON`) never resolves a pickup/return
stop - such stops do not count toward the ordinal - whereas the DOM
scan's remaining list keeps every discovered incomplete stop with no
condition beyond its completion flag. -/
theorem claim_C7 :
    (∀ (itin : JVal) (nth : Int) (h : JHit),
        getNthRemainingStopFromJSON itin nth = some h →
        isPickupOrReturn h.stop = false) ∧
    (∀ (m : List (Int × SH)) (x : SH),
        x ∈ remainingOf m ↔ x ∈ m.map Prod.snd ∧ x.done = false) := by
  constructor
  · intro itin nth h hres
    unfold getNthRemainingStopFromJSON at hres
    split at hres
    · simp only [] at hres
      split at hres
      · simp at hres
      · have hm : h ∈ stableSortHits
            ((List.filter (fun s =>
              !(jIsNull (getStopSeq s)) &&
              !(isPickupOrReturn s) && !(isStopCompleted s)) (itemsList _)).map
              (fun s => JHit.mk (getStopSeq s) s)) := List.get?_mem hres
        rw [mem_stableSortHits] at hm
        rcases List.mem_map.mp hm with ⟨s, hs, hmk⟩
        have hf := (List.mem_filter.mp hs).2
        simp only [Bool.and_eq_true, Bool.not_eq_true'] at hf
        rw [← hmk]
        exact hf.1.2
    · simp at hres
  · intro m x
    exact mem_remainingOf m

/-- Counterexample to C7 as stated: an incomplete pickup stop with a
parsable sequence number (1) is skipped by the JSON selector, which
resolves ordinal 1 to the stop with sequence number 2 instead. -/
theorem claim_C7_counterexample :
    jIsNull (getStopSeq pickupStopC7) = false ∧
    isStopCompleted pickupStopC7 = false ∧
    isPickupOrReturn pickupStopC7 = true ∧
    (getNthRemainingStopFromJSON itinC7 1).map (fun h => seqKey h.seq) = some 2 := by
  exact ⟨by decide, by decide, by decide, by decide⟩

/-- Witness for C7: the resolved hit on the concrete itinerary is not a
pickup/return stop, and a concrete non-done discovered stop is in the
DOM remaining list. -/
theorem claim_C7_witness :
    isPickupOrReturn hitC7.stop = false ∧
    (SH.mk 3 false ∈ remainingOf [((3 : Int), SH.mk 3 false)]
      ↔ SH.mk 3 false ∈ [((3 : Int), SH.mk 3 false)].map Prod.snd
          ∧ (SH.mk 3 false).done = false) :=
  ⟨claim_C7.1 itinC7 1 hitC7 rfl, claim_C7.2 [((3 : Int), SH.mk 3 false)] (SH.mk 3 false)⟩

/-- C2: when the JSON index yields a (truthy) address for the target
stop's sequence number, the copy resolves with `source = "json"` and that
very address (re-cleaning is a no-op on index entries), the result does
not depend on the DOM oracle at all, and the DOM-invocation flag is
`false`. -/
theorem claim_C2 (env : StopScanEnv) (itinId : Option (List Char))
    (dom : Int → Option (List Char)) (nth : Int) (itinJson : Option JVal)
    (ast : List (List Char × List (List Char × List Char))) (t : SH) (s : List Char)
    (wf : ∀ p ∈ ast, ∀ q ∈ p.2, ∃ w, q.2 = cleanAddressL w)
    (ht : (collectRemainingStopsNth env
        (max 1 (if nth = 0 then 5 else nth))).target = some t)
    (hz : ¬(t.stopNum = 0))
    (hs : (getJsonAddressForStop itinId t.stopNum itinJson ast).1 = some s)
    (hsne : s ≠ []) :
    copyNthRemainingStopAddress env itinId dom nth itinJson ast
      = (some ⟨t.stopNum, s, t, "json".data⟩,
         (getJsonAddressForStop itinId t.stopNum itinJson ast).2, false) := by
  obtain ⟨w, hw⟩ := getJson_image wf hs
  unfold copyNthRemainingStopAddress
  simp only [ht]
  rw [if_neg hz]
  simp only [hs]
  rw [if_pos hsne]
  rw [show cleanAddressL s = s by rw [hw]; exact cleanAddressL_triple w]

/-- Witness for C2: on a concrete itinerary whose JSON carries an address
for the target stop while the DOM oracle carries a competing one, the
copy returns the JSON address with `source = "json"` and the
DOM-invocation flag stays `false`. -/
theorem claim_C2_witness :
    (getJsonAddressForStop (some "ITIN1".data) 5 (some itinJsonC2) []).1
        = some "12 Oak St, Town, IL 62704".data ∧
    copyNthRemainingStopAddress env5C2 (some "ITIN1".data) domC2 1 (some itinJsonC2) []
      = (some ⟨5, "12 Oak St, Town, IL 62704".data, SH.mk 5 false, "json".data⟩,
         (getJsonAddressForStop (some "ITIN1".data) 5 (some itinJsonC2) []).2, false) :=
  ⟨by decide,
   claim_C2 env5C2 (some "ITIN1".data) domC2 1 (some itinJsonC2) []
     (SH.mk 5 false) "12 Oak St, Town, IL 62704".data
     (by intro p hp; simp at hp) (by decide) (by decide) (by decide) (by decide)⟩

/-- C4: capturing a truthy document for an itinerary ID replaces the
stored document under exactly that ID, deletes the memoized address index
for that ID (so a subsequent resolution rebuilds the index from the new
document), and key uniqueness of the store is preserved; the
opportunistic-fetch path of `getItineraryJSON` stores and invalidates the
same way. -/
theorem claim_C4 (st : NetState) (url : List Char) (jv : JVal) (id : List Char)
    (hid : extractItinId url = some id) (hj : jTruthy jv = true) :
    (saveIfItinerary url (some jv) st).byId.lookup id = some jv ∧
    (saveIfItinerary url (some jv) st).addrIndex.lookup id = none ∧
    ((st.byId.map Prod.fst).Nodup →
      ((saveIfItinerary url (some jv) st).byId.map Prod.fst).Nodup) ∧
    (∀ stopNum : Int,
      (getJsonAddressForStop (some id) stopNum (some jv)
          (saveIfItinerary url (some jv) st).addrIndex).1
        = match (buildStopAddressIndex jv).lookup (intChars stopNum) with
          | some a => if a ≠ [] then some (cleanAddressL a) else none
          | none => none) ∧
    (∀ (id0 sa : List Char) (j2 : JVal), id0 ≠ [] → sa ≠ [] →
      st.byId.lookup id0 = none → jTruthy j2 = true →
      getItineraryJSON st (some id0) (some sa) (some j2)
        = (some j2, ⟨setAssoc st.byId id0 j2, eraseAssoc st.addrIndex id0⟩)) := by
  have hsave : saveIfItinerary url (some jv) st
      = { byId := setAssoc st.byId id jv, addrIndex := eraseAssoc st.addrIndex id } := by
    unfold saveIfItinerary
    rw [hid]
    simp only [hj, if_pos]
  refine ⟨?_, ?_, ?_, ?_, ?_⟩
  · rw [hsave]
    exact lookup_setAssoc_self st.byId id jv
  · rw [hsave]
    exact lookup_eraseAssoc_self st.addrIndex id
  · intro hnd
    rw [hsave]
    exact nodup_keys_setAssoc jv hnd
  · intro stopNum
    rw [hsave]
    unfold getJsonAddressForStop
    simp only []
    rw [if_neg (extractItinId_ne_nil hid)]
    simp only [hj, if_pos, lookup_eraseAssoc_self, Option.getD_none, Option.isSome_none]
    cases hX : (buildStopAddressIndex jv).lookup (intChars stopNum) with
    | none => simp only [hX]
    | some a => simp only [hX]
  · intro id0 sa j2 h0 hsa hnone hj2
    unfold getItineraryJSON
    simp only []
    rw [if_neg (by simp [h0, hsa])]
    simp only [hnone, hj2, if_pos]

/-- Witness for C4: capturing a new document for the already-present ID
replaces it, drops the memoized index, and a subsequent resolution
answers from the index of the new document, not the stale entry. -/
theorem claim_C4_witness :
    (saveIfItinerary urlC4 (some newDocC4) staleStC4).byId.lookup "ITIN1".data
        = some newDocC4 ∧
    (saveIfItinerary urlC4 (some newDocC4) staleStC4).addrIndex.lookup "ITIN1".data
        = none ∧
    (getJsonAddressForStop (some "ITIN1".data) 7 (some newDocC4)
        (saveIfItinerary urlC4 (some newDocC4) staleStC4).addrIndex).1
      = match (buildStopAddressIndex newDocC4).lookup (intChars 7) with
        | some a => if a ≠ [] then some (cleanAddressL a) else none
        | none => none :=
  ⟨(claim_C4 staleStC4 urlC4 newDocC4 "ITIN1".data (by decide) (by decide)).1,
   (claim_C4 staleStC4 urlC4 newDocC4 "ITIN1".data (by decide) (by decide)).2.1,
   (claim_C4 staleStC4 urlC4 newDocC4 "ITIN1".data (by decide) (by decide)).2.2.2.1 7⟩

/-- C5: a `requestAddress` call that observes the busy gate held reports
the busy outcome immediately, starts no workflow, and leaves the gate
held by the running call (first conjunct); a call that acquires the gate
and starts the workflow releases the gate whether the workflow throws or
completes (second conjunct); any call that starts with the gate free
leaves it free when it returns (third conjunct). -/
theorem claim_C5 :
    (∀ env : ReqEnv, env.rowName ≠ [] →
        requestAddress true env = (ReqOutcome.busy, true, 0)) ∧
    (∀ env : ReqEnv, env.rowName ≠ [] → env.cacheHas = false →
        (requestAddress false env).2.1 = false ∧
        (requestAddress false env).2.2 = 1) ∧
    (∀ env : ReqEnv, (requestAddress false env).2.1 = false) := by
  refine ⟨?_, ?_, ?_⟩
  · intro env hname
    unfold requestAddress
    rw [if_neg hname, if_pos rfl]
  · intro env hname hcache
    unfold requestAddress
    rw [if_neg hname, if_neg (by simp), hcache]
    by_cases ht : env.workflowThrows = true
    · rw [if_neg (by simp), if_pos ht]
      exact ⟨rfl, rfl⟩
    · rw [if_neg (by simp), if_neg ht]
      exact ⟨rfl, rfl⟩
  · intro env
    unfold requestAddress
    by_cases hname : env.rowName = []
    · rw [if_pos hname]
    · rw [if_neg hname, if_neg (by simp)]
      by_cases hcache : env.cacheHas = true
      · rw [if_pos hcache]
      · rw [if_neg hcache]
        by_cases ht : env.workflowThrows = true
        · rw [if_pos ht]
        · rw [if_neg ht]

/-- Witness for C5: with the gate held the concrete call reports busy
with zero workflow starts; run with the gate free it starts one workflow
and releases the gate. -/
theorem claim_C5_witness :
    requestAddress true reqEnvC5 = (ReqOutcome.busy, true, 0) ∧
    (requestAddress false reqEnvC5).2.1 = false ∧
    (requestAddress false reqEnvC5).2.2 = 1 :=
  ⟨claim_C5.1 reqEnvC5 (by decide),
   (claim_C5.2.1 reqEnvC5 (by decide) (by decide)).1,
   (claim_C5.2.1 reqEnvC5 (by decide) (by decide)).2⟩

/-- C10: on a cache whose keys are distinct and whose size is within
`maxSize ≥ 1`: `set` keeps the size bound; `set` of a new key on a full
cache evicts exactly the first (least recently used) entry; `set` of an
existing key rebinds it without eviction, keeping the size and every
other entry; a `get` hit moves the entry to the most-recently-used end
without changing the size; a `get` miss changes nothing. -/
theorem claim_C10 (m : List (List Char × List Char)) (maxSize : Nat)
    (k : List Char) (v : List Char)
    (hnd : (m.map Prod.fst).Nodup) (hsz : m.length ≤ maxSize)
    (hmax : 1 ≤ maxSize) :
    (lruSet m maxSize k v).length ≤ maxSize ∧
    (m.lookup k = none → m.length = maxSize →
      lruSet m maxSize k v = m.tail ++ [(k, v)] ∧
      (lruSet m maxSize k v).length = maxSize) ∧
    (∀ w, m.lookup k = some w →
      (lruSet m maxSize k v).length = m.length ∧
      (lruSet m maxSize k v).lookup k = some v ∧
      (∀ k1 v1, (k1, v1) ∈ m → k1 ≠ k → (k1, v1) ∈ lruSet m maxSize k v)) ∧
    (∀ w, m.lookup k = some w →
      lruGet m k = (some w, eraseAssoc m k ++ [(k, w)]) ∧
      (lruGet m k).2.length = m.length ∧
      (lruGet m k).2.getLast? = some (k, w)) ∧
    (m.lookup k = none → lruGet m k = (none, m)) := by
  refine ⟨?_, ?_, ?_, ?_, ?_⟩
  · unfold lruSet
    by_cases hk : (m.lookup k).isSome = true
    · rw [if_pos hk]
      cases hl : m.lookup k with
      | none => rw [hl] at hk; simp at hk
      | some w =>
        rw [List.length_append]
        have := length_eraseAssoc_of_some hnd hl
        simp only [List.length_cons, List.length_nil]
        omega
    · rw [if_neg hk]
      by_cases hfull : maxSize ≤ m.length
      · rw [if_pos hfull]
        cases m with
        | nil => simpa using hmax
        | cons a t =>
          rw [List.length_append]
          simp only [List.length_cons, List.length_nil] at hsz ⊢
          omega
      · rw [if_neg hfull]
        rw [List.length_append]
        simp only [List.length_cons, List.length_nil]
        omega
  · intro hnone hfull
    unfold lruSet
    rw [hnone]
    simp only [Option.isSome_none, Bool.false_eq_true, if_false]
    rw [if_pos (by omega)]
    cases m with
    | nil => simp at hfull; omega
    | cons a t =>
      refine ⟨rfl, ?_⟩
      rw [List.length_append]
      simp only [List.length_cons, List.length_nil] at hfull ⊢
      omega
  · intro w hw
    have hks : (m.lookup k).isSome = true := by rw [hw]; rfl
    unfold lruSet
    rw [if_pos hks]
    refine ⟨?_, ?_, ?_⟩
    · rw [List.length_append]
      have := length_eraseAssoc_of_some hnd hw
      simp only [List.length_cons, List.length_nil]
      omega
    · rw [lookup_append_of_none _ (lookup_eraseAssoc_self m k)]
      unfold List.lookup
      rw [show (k == k) = true by simp]
    · intro k1 v1 hmem hne
      exact List.mem_append_left _ (mem_eraseAssoc.mpr ⟨hmem, hne⟩)
  · intro w hw
    unfold lruGet
    rw [hw]
    refine ⟨rfl, ?_, ?_⟩
    · rw [List.length_append]
      have := length_eraseAssoc_of_some hnd hw
      simp only [List.length_cons, List.length_nil]
      omega
    · simp
  · intro hnone
    unfold lruGet
    rw [hnone]

/-- Witness for C10: a full two-entry cache with distinct keys satisfies
the hypotheses; inserting a third key evicts exactly the oldest entry. -/
theorem claim_C10_witness :
    (lruSet [("a".data, "1".data), ("b".data, "2".data)] 2 "c".data "3".data).length ≤ 2 ∧
    lruSet [("a".data, "1".data), ("b".data, "2".data)] 2 "c".data "3".data
      = [("b".data, "2".data), ("c".data, "3".data)] :=
  ⟨(claim_C10 [("a".data, "1".data), ("b".data, "2".data)] 2 "c".data "3".data
      (by decide) (by decide) (by decide)).1,
   ((claim_C10 [("a".data, "1".data), ("b".data, "2".data)] 2 "c".data "3".data
      (by decide) (by decide) (by decide)).2.1 (by decide) (by decide)).1⟩

end Onth
